import Mathlib

/-!
# LRU cache with a write-through backing store

Shallow embedding of `pkg/cache/cache.go` and proofs about it.

Conventions of the embedding.

* A Go `map[string]T` is an `AList` (association list without duplicate keys). The order of the
  entries carries no meaning: wherever the source ranges over the map, the order in which the Go
  runtime yields the values is an explicit argument `scan`.
* A `*CacheItem` held by the map is the item value stored under its key; a write through the
  pointer is a `replace` of that entry. Every key owns its item (`updateCache` allocates a new
  item for each admission) and the map holds no nil pointer. A nil `*CacheItem` variable, such
  as the `item` that `searchCache` returns on a miss, is `none`.
* A call returns the cache as it stands when the call ends together with what it returned, or
  the `Fault` that stopped it. The writes made before a fault stay in the returned cache.
* `data interface{}` is a type parameter `δ`.
* The counters are Go `int`s, 64 bits wide: `c.uses++` is `wrapInt64 (c.uses + 1)`, so a
  counter at `math.MaxInt64` wraps to `math.MinInt64`.
-/

namespace LRUCache

/-! ## Time -/

/-- Instant of a Go `time.Time`, counted in nanoseconds since the Unix epoch. -/
abbrev Time := Int

/-- Value of `math.MaxInt64`. -/
def maxInt64 : Int := 9223372036854775807

/-- Truncation of an integer to a two's complement `int64`. -/
def wrapInt64 (x : Int) : Int :=
  (x + 9223372036854775808) % 18446744073709551616 - 9223372036854775808

/-- Value of `math.MinInt64`. -/
def minInt64 : Int := -9223372036854775808

/-- The integer is the value of some `int64`. -/
def InInt64 (x : Int) : Prop := minInt64 ≤ x ∧ x ≤ maxInt64

instance InInt64.decidable (x : Int) : Decidable (InInt64 x) :=
  inferInstanceAs (Decidable (minInt64 ≤ x ∧ x ≤ maxInt64))

/-- Reading `t.UnixNano()`: the nanosecond count, computed in `int64` arithmetic. -/
def UnixNano (t : Time) : Int := wrapInt64 t

/-- The zero `time.Time` (January 1, year 1, 00:00:00 UTC), which a `CacheItem` literal without
`lastUsed` carries. -/
def zeroTime : Time := -62135596800000000000

/-- Clock of the cache (`clockwork.Clock`); `Now` is what `clock.Now().UTC()` reads. -/
structure Clock where
  Now : Time

/-! ## Data model -/

/-- Run-time failure that stops a call. -/
inductive Fault where
  | nilDereference
  deriving DecidableEq, Repr

/-- Error values of the package. -/
inductive GoError where
  | ErrDataNotInBackingStore
  deriving DecidableEq, Repr

/-- CacheItem represents an item stored in the cache. -/
structure CacheItem (δ : Type) where
  data : δ
  tag : String
  lastUsed : Time

/-- Backing store: `store` maps item tag to data. -/
structure hardStorage (δ : Type) where
  store : AList (fun _ : String => δ)

/-- Cache uses the LRU replacement model; `items` maps item tag to item. -/
structure Cache (δ : Type) where
  size : Int
  items : AList (fun _ : String => CacheItem δ)
  backingStore : hardStorage δ
  clock : Clock
  uses : Int
  hits : Int
  misses : Int

variable {δ : Type}

/-- Value of `len(c.items)`. -/
def Cache.len (c : Cache δ) : Int := (c.items.keys.length : Int)

/-! ## Backing store -/

/-- Source: `b.store[tag] = item`. -/
def hardStorage.addItem (b : hardStorage δ) (tag : String) (item : δ) : hardStorage δ :=
  { store := b.store.insert tag item }

/-- Source: `item, hit = b.store[tag]`; `some v` stands for `(v, true)`, `none` for a miss. -/
def hardStorage.getItem (b : hardStorage δ) (tag : String) : Option δ :=
  b.store.lookup tag

/-! ## Helpers -/

/-- Source: `item, hit = c.items[tag]`; `none` is the pair `(nil, false)`. -/
def Cache.searchCache (c : Cache δ) (tag : String) : Option (CacheItem δ) :=
  c.items.lookup tag

/-- One iteration of the loop of `findLRU`; the accumulator is `(lru, curUnixTime)`. -/
def findLRUStep (acc : Option (CacheItem δ) × Int) (item : CacheItem δ) :
    Option (CacheItem δ) × Int :=
  let itemsUnixTime := UnixNano item.lastUsed
  if itemsUnixTime < acc.2 then (some item, itemsUnixTime) else acc

/-- The loop of `findLRU` over the items in the order `scan` in which the map yields them. -/
def findLRU (scan : List (CacheItem δ)) : Option (CacheItem δ) :=
  (scan.foldl findLRUStep (none, maxInt64)).1

/-- Source: `c.lastUsed = clock.Now().UTC()` on a pointer receiver; a nil receiver faults. -/
def updateCacheItemLRU (p : Option (CacheItem δ)) (clock : Clock) :
    Except Fault (CacheItem δ) :=
  match p with
  | none => .error .nilDereference
  | some item => .ok { item with lastUsed := clock.Now }

/-- Source: `delete(c.items, evictedResident.tag); c.items[newResident.tag] = newResident`.
Reading `evictedResident.tag` faults on a nil victim, before the map is touched. -/
def Cache.evict (c : Cache δ) (newResident : CacheItem δ)
    (evictedResident : Option (CacheItem δ)) : Cache δ × Except Fault Unit :=
  match evictedResident with
  | none => (c, .error .nilDereference)
  | some ev =>
    ({ c with items := (c.items.erase ev.tag).insert newResident.tag newResident }, .ok ())

/-- Source: `updateCache`. The new item is built without `lastUsed`; it is stored only by
`evict`, which runs only when `len(c.items) >= c.size`. -/
def Cache.updateCache (c : Cache δ) (scan : List (CacheItem δ)) (tag : String) (data : δ) :
    Cache δ × Except Fault (CacheItem δ) :=
  let newItem : CacheItem δ := { tag := tag, data := data, lastUsed := zeroTime }
  if c.len ≥ c.size then
    let lru := findLRU scan
    match c.evict newItem lru with
    | (c1, .error f) => (c1, .error f)
    | (c1, .ok _) => (c1, .ok newItem)
  else
    (c, .ok newItem)

/-- Source: `resetCounters`. -/
def Cache.resetCounters (c : Cache δ) : Cache δ :=
  { c with uses := 0, misses := 0, hits := 0 }

/-! ## Constructors -/

/-- Source: `NewLRUCache`; `realClock` is the real clock it installs. -/
def NewLRUCache (size : Int) (realClock : Clock) : Cache δ :=
  { size := size
    items := ∅
    backingStore := { store := ∅ }
    clock := realClock
    uses := 0
    hits := 0
    misses := 0 }

/-- Source: `NewLRUCacheWithClock`. -/
def NewLRUCacheWithClock (size : Int) (clock : Clock) (realClock : Clock) : Cache δ :=
  let c : Cache δ := NewLRUCache size realClock
  { c with clock := clock }

/-! ## Operations -/

/-- Source: `AddItem`. On a miss `item` is nil when `item.updateCacheItemLRU` is reached. -/
def Cache.AddItem (c : Cache δ) (scan : List (CacheItem δ)) (tag : String) (data : δ) :
    Cache δ × Except Fault Unit :=
  let c := { c with uses := wrapInt64 (c.uses + 1) }
  match c.searchCache tag with
  | some item =>
    let c := { c with hits := wrapInt64 (c.hits + 1) }
    let item := { item with data := data }
    let c := { c with backingStore := c.backingStore.addItem tag data }
    match updateCacheItemLRU (some item) c.clock with
    | .error f => ({ c with items := c.items.replace tag item }, .error f)
    | .ok item => ({ c with items := c.items.replace tag item }, .ok ())
  | none =>
    let c := { c with misses := wrapInt64 (c.misses + 1) }
    let c :=
      match c.backingStore.getItem tag with
      | some _ => c
      | none => { c with backingStore := c.backingStore.addItem tag data }
    match updateCacheItemLRU (none : Option (CacheItem δ)) c.clock with
    | .error f => (c, .error f)
    | .ok _ =>
      match c.updateCache scan tag data with
      | (c1, .error f) => (c1, .error f)
      | (c1, .ok _) => (c1, .ok ())

/-- Source: `GetItem`. The result is the Go pair `(item, err)`. After a miss served by the
backing store the new item is reachable from `c.items[tag]` exactly when `evict` stored it
(the tag was not resident before), so the write of `lastUsed` is a `replace` on that key. -/
def Cache.GetItem (c : Cache δ) (scan : List (CacheItem δ)) (tag : String) :
    Cache δ × Except Fault (Option (CacheItem δ) × Option GoError) :=
  let c := { c with uses := wrapInt64 (c.uses + 1) }
  match c.searchCache tag with
  | some item =>
    let c := { c with hits := wrapInt64 (c.hits + 1) }
    match updateCacheItemLRU (some item) c.clock with
    | .error f => (c, .error f)
    | .ok item => ({ c with items := c.items.replace tag item }, .ok (some item, none))
  | none =>
    let c := { c with misses := wrapInt64 (c.misses + 1) }
    match c.backingStore.getItem tag with
    | none => (c, .ok (none, some .ErrDataNotInBackingStore))
    | some data =>
      match c.updateCache scan tag data with
      | (c1, .error f) => (c1, .error f)
      | (c1, .ok item) =>
        match updateCacheItemLRU (some item) c1.clock with
        | .error f => (c1, .error f)
        | .ok item => ({ c1 with items := c1.items.replace tag item }, .ok (some item, none))

/-! ## Sequences of calls -/

/-- A public operation with its arguments. -/
inductive Op (δ : Type) where
  | AddItem (tag : String) (data : δ)
  | GetItem (tag : String)

/-- One call: the operation, what the clock reads during it, and the order in which a range
over `items` would yield the values. -/
structure Call (δ : Type) where
  op : Op δ
  now : Time
  scan : List (CacheItem δ)

/-- Cache after one call; a call stopped by a fault leaves the cache as it was at the fault. -/
def Cache.step (c : Cache δ) (call : Call δ) : Cache δ :=
  let c := { c with clock := { Now := call.now } }
  match call.op with
  | .AddItem tag data => (c.AddItem call.scan tag data).1
  | .GetItem tag => (c.GetItem call.scan tag).1

/-- Cache after a sequence of calls. -/
def Cache.run (c : Cache δ) (calls : List (Call δ)) : Cache δ :=
  calls.foldl Cache.step c

/-! ## State predicates -/

/-- The values of the map, in the order of the representation. -/
def Cache.values (c : Cache δ) : List (CacheItem δ) :=
  c.items.entries.map Sigma.snd

/-- The list `scan` is an order in which a range over `c.items` can yield the values. -/
def Cache.ScanOf (c : Cache δ) (scan : List (CacheItem δ)) : Prop :=
  scan.Perm c.values

/-- Every resident item is stored under its own tag (`items` maps item tag to item). -/
def Cache.TagsAreKeys (c : Cache δ) : Prop :=
  ∀ k item, c.items.lookup k = some item → item.tag = k

/-- Capacity bound together with the representation invariant that makes it inductive. -/
def Cache.CapInv (c : Cache δ) : Prop :=
  c.TagsAreKeys ∧ c.len ≤ c.size

/-- An admission finds room or a victim: the cache is below capacity, or some resident item has
a timestamp below the sentinel `math.MaxInt64` with which `findLRU` starts its scan. -/
def Cache.CanAdmit (c : Cache δ) : Prop :=
  c.len < c.size ∨ ∃ x ∈ c.values, UnixNano x.lastUsed < maxInt64

/-- Every tag that is a key of `items` is also a key of the backing store. -/
def Cache.FastInDurable (c : Cache δ) : Prop :=
  ∀ k, k ∈ c.items → k ∈ c.backingStore.store

/-- Counter accounting: every use is a hit or a miss. -/
def Cache.CountersAgree (c : Cache δ) : Prop :=
  c.uses = c.hits + c.misses

/-- Counter accounting as the Go expression `c.uses == c.hits + c.misses` evaluates it. -/
def Cache.CountersAgreeInt64 (c : Cache δ) : Prop :=
  c.uses = wrapInt64 (c.hits + c.misses)

/-- No counter is at `math.MaxInt64`: the next increment of each does not wrap. -/
def Cache.CountersBelowMax (c : Cache δ) : Prop :=
  InInt64 (c.uses + 1) ∧ InInt64 (c.hits + 1) ∧ InInt64 (c.misses + 1)

instance Cache.CountersBelowMax.decidable (c : Cache δ) : Decidable c.CountersBelowMax :=
  inferInstanceAs
    (Decidable (InInt64 (c.uses + 1) ∧ InInt64 (c.hits + 1) ∧ InInt64 (c.misses + 1)))

/-- Stated from the tie-break rule rather than from the loop: the first item of the scan whose
timestamp (as Unix nanoseconds) is the minimum of the scan. -/
def firstOfMinimum (scan : List (CacheItem δ)) : Option (CacheItem δ) :=
  scan.find? (fun x => decide (∀ y ∈ scan, UnixNano x.lastUsed ≤ UnixNano y.lastUsed))

/-- Stated from the words of the tie-break rule on `lastUsed` itself: the first item of the scan
whose `lastUsed` is the minimum `lastUsed` of the scan. -/
def firstOfMinimumLastUsed (scan : List (CacheItem δ)) : Option (CacheItem δ) :=
  scan.find? (fun x => decide (∀ y ∈ scan, x.lastUsed ≤ y.lastUsed))

/-! ## Concrete caches -/

/-- Cache built by `NewLRUCache(5)`, as in `cmd/cache/main.go`. -/
def freshCache : Cache Nat := NewLRUCache 5 { Now := 100 }

/-- Empty cache of size 5 whose backing store already holds `"a"` with value 1, as in the case
"miss item but not backing store" of `TestCache_GetItem`. -/
def storedCache : Cache Nat :=
  { freshCache with backingStore := freshCache.backingStore.addItem "a" 1 }

/-- Cache built by `NewLRUCache(0)` whose backing store holds `"a"` with value 1. -/
def zeroSizeCache : Cache Nat :=
  { (NewLRUCache 0 { Now := 100 } : Cache Nat) with
    backingStore := { store := (∅ : AList (fun _ : String => Nat)).insert "a" 1 } }

/-- Item `"a"` last used at time 0. -/
def itemA : CacheItem Nat := { data := 1, tag := "a", lastUsed := 0 }

/-- Item `"b"` last used one second later. -/
def itemB : CacheItem Nat := { data := 2, tag := "b", lastUsed := 1000000000 }

/-- Item `"b"` sharing the time of `itemA`, as in `TestFindLRU/two_share_time`. -/
def itemBTied : CacheItem Nat := { data := 2, tag := "b", lastUsed := 0 }

/-- Item `"c"` last used two seconds after `itemA`. -/
def itemC : CacheItem Nat := { data := 3, tag := "c", lastUsed := 2000000000 }

/-- Cache of size 5 holding `"a"`, `"b"` and `"c"`, where `"a"` and `"b"` share the smallest
time, after `TestFindLRU/two_share_time`. -/
def tiedCache : Cache Nat :=
  { (NewLRUCache 5 { Now := 100 } : Cache Nat) with
    items := (((∅ : AList (fun _ : String => CacheItem Nat)).insert "a" itemA).insert
      "b" itemBTied).insert "c" itemC }

/-- Item `"b"` stamped at the last instant whose `UnixNano` fits, `math.MaxInt64`. -/
def itemBLast : CacheItem Nat := { data := 2, tag := "b", lastUsed := 9223372036854775807 }

/-- Item `"a"` stamped at the last instant whose `UnixNano` fits, `math.MaxInt64`. -/
def itemALast : CacheItem Nat := { data := 1, tag := "a", lastUsed := 9223372036854775807 }

/-- Cache of size 2 holding only `"a"`, as in `TestUpdateCache/no_eviction_case`. -/
def halfCache : Cache Nat :=
  { (NewLRUCache 2 { Now := 100 } : Cache Nat) with
    items := (∅ : AList (fun _ : String => CacheItem Nat)).insert "a" itemA }

/-- Cache of size 2 holding `"a"` and `"b"`, as in `TestUpdateCache/evicted_case`, with `"c"`
in the backing store. -/
def fullCache : Cache Nat :=
  { (NewLRUCache 2 { Now := 100 } : Cache Nat) with
    items := ((∅ : AList (fun _ : String => CacheItem Nat)).insert "a" itemA).insert "b" itemB
    backingStore := { store := (∅ : AList (fun _ : String => Nat)).insert "c" 3 } }

/-- Full cache of size 1 whose only resident is stamped `math.MaxInt64`; the backing store
holds `"a"` with value 1. -/
def lastInstantCache : Cache Nat :=
  { (NewLRUCache 1 { Now := 100 } : Cache Nat) with
    items := (∅ : AList (fun _ : String => CacheItem Nat)).insert "b" itemBLast
    backingStore := { store := (∅ : AList (fun _ : String => Nat)).insert "a" 1 } }

/-- Full cache of size 1 whose only resident `"a"` is stamped `math.MaxInt64`. -/
def lastInstantOnly : Cache Nat :=
  { (NewLRUCache 1 { Now := 100 } : Cache Nat) with
    items := (∅ : AList (fun _ : String => CacheItem Nat)).insert "a" itemALast }

/-- Item `"c"` stamped at the last instant whose `UnixNano` fits, `math.MaxInt64`. -/
def itemCLast : CacheItem Nat := { data := 3, tag := "c", lastUsed := 9223372036854775807 }

/-- Full cache of size 2 whose two residents are stamped `math.MaxInt64`; the backing store
holds `"a"` with value 1. -/
def lastInstantPair : Cache Nat :=
  { (NewLRUCache 2 { Now := 100 } : Cache Nat) with
    items := ((∅ : AList (fun _ : String => CacheItem Nat)).insert "b" itemBLast).insert
      "c" itemCLast
    backingStore := { store := (∅ : AList (fun _ : String => Nat)).insert "a" 1 } }

/-- Full cache of size 1 whose only item, tagged `"a"`, is stored under the key `"x"`; the
backing store holds `"c"` with value 3. -/
def misKeyedCache : Cache Nat :=
  { (NewLRUCache 1 { Now := 100 } : Cache Nat) with
    items := (∅ : AList (fun _ : String => CacheItem Nat)).insert "x" itemA
    backingStore := { store := (∅ : AList (fun _ : String => Nat)).insert "c" 3 } }

/-- Item `"x"` carrying the zero `time.Time`, as `updateCache` builds its new item. -/
def itemXZero : CacheItem Nat := { data := 1, tag := "x", lastUsed := zeroTime }

/-- Item `"y"` last used 7 * 10^18 nanoseconds before the Unix epoch (in the year 1748). -/
def itemYOld : CacheItem Nat := { data := 2, tag := "y", lastUsed := -7000000000000000000 }

/-- Cache of size 2 holding the zero-time item `"x"` and the item `"y"` of 1748. -/
def zeroTimeCache : Cache Nat :=
  { (NewLRUCache 2 { Now := 100 } : Cache Nat) with
    items := ((∅ : AList (fun _ : String => CacheItem Nat)).insert "y" itemYOld).insert
      "x" itemXZero }

/-- The full cache of `TestUpdateCache/evicted_case` after `math.MaxInt64` hits. -/
def saturatedHits : Cache Nat :=
  { fullCache with uses := 9223372036854775807, hits := 9223372036854775807 }

/-- The cache of `NewLRUCache(5)` after `math.MaxInt64` misses. -/
def saturatedMisses : Cache Nat :=
  { freshCache with uses := 9223372036854775807, misses := 9223372036854775807 }

/-- Three calls on one tag: a write, a read, a write. -/
def sampleCalls : List (Call Nat) :=
  [ { op := .AddItem "a" 1, now := 1, scan := [] },
    { op := .GetItem "a", now := 2, scan := [] },
    { op := .AddItem "a" 3, now := 3, scan := [] } ]

/-- The full cache of `TestUpdateCache/evicted_case` with `uses` at `math.MaxInt64`, made of
2^62 hits and 2^62 - 1 misses. -/
def saturatedUses : Cache Nat :=
  { fullCache with
    uses := 9223372036854775807
    hits := 4611686018427387904
    misses := 4611686018427387903 }

/-! # Theorems -/

/-! ### Arithmetic of `int64` -/

theorem wrapInt64_inInt64 (x : Int) : InInt64 (wrapInt64 x) := by
  unfold InInt64 wrapInt64 minInt64 maxInt64
  omega

theorem wrapInt64_of_inInt64 {x : Int} (h : InInt64 x) : wrapInt64 x = x := by
  unfold InInt64 minInt64 maxInt64 at h
  unfold wrapInt64
  omega

theorem wrapInt64_wrap_add (a b : Int) : wrapInt64 (wrapInt64 a + b) = wrapInt64 (a + b) := by
  unfold wrapInt64
  omega

theorem wrapInt64_add_wrap (a b : Int) : wrapInt64 (a + wrapInt64 b) = wrapInt64 (a + b) := by
  unfold wrapInt64
  omega

/-! ### Lookup after `replace` -/

section MapLemmas
variable {β : Type}

theorem dlookup_kreplace_ne {a a' : String} {b : β} (h : a ≠ a') :
    ∀ l : List (Σ _ : String, β), List.dlookup a (List.kreplace a' b l) = List.dlookup a l
  | [] => rfl
  | ⟨k, v⟩ :: l => by
    by_cases hk : a' = k
    · subst hk
      have : List.kreplace a' b (⟨a', v⟩ :: l) = ⟨a', b⟩ :: l := by
        simp [List.kreplace, List.lookmap_cons_some]
      rw [this, List.dlookup_cons_ne _ _ h, List.dlookup_cons_ne _ _ h]
    · have : List.kreplace a' b (⟨k, v⟩ :: l) = ⟨k, v⟩ :: List.kreplace a' b l := by
        simp [List.kreplace, List.lookmap_cons_none, hk]
      rw [this]
      by_cases hak : a = k
      · subst hak
        rw [List.dlookup_cons_eq, List.dlookup_cons_eq]
      · rw [List.dlookup_cons_ne _ _ hak, List.dlookup_cons_ne _ _ hak]
        exact dlookup_kreplace_ne h l

theorem dlookup_kreplace_self {a : String} {b : β} :
    ∀ l : List (Σ _ : String, β),
      List.dlookup a (List.kreplace a b l) = (List.dlookup a l).map (fun _ => b)
  | [] => rfl
  | ⟨k, v⟩ :: l => by
    by_cases hk : a = k
    · subst hk
      have : List.kreplace a b (⟨a, v⟩ :: l) = ⟨a, b⟩ :: l := by
        simp [List.kreplace, List.lookmap_cons_some]
      rw [this, List.dlookup_cons_eq, List.dlookup_cons_eq]
      rfl
    · have : List.kreplace a b (⟨k, v⟩ :: l) = ⟨k, v⟩ :: List.kreplace a b l := by
        simp [List.kreplace, List.lookmap_cons_none, hk]
      rw [this, List.dlookup_cons_ne _ _ hk, List.dlookup_cons_ne _ _ hk]
      exact dlookup_kreplace_self l

theorem lookup_replace_ne {a a' : String} {b : β} (s : AList (fun _ : String => β))
    (h : a ≠ a') : (s.replace a' b).lookup a = s.lookup a :=
  dlookup_kreplace_ne h s.entries

theorem lookup_replace_self {a : String} {b : β} (s : AList (fun _ : String => β)) :
    (s.replace a b).lookup a = (s.lookup a).map (fun _ => b) :=
  dlookup_kreplace_self s.entries

theorem replace_of_lookup_none {a : String} {b : β} (s : AList (fun _ : String => β))
    (h : s.lookup a = none) : s.replace a b = s := by
  apply AList.ext
  apply List.kreplace_of_forall_not
  intro c hc
  exact (AList.lookup_eq_none.1 h) (AList.mem_keys.2 (List.mem_keys_of_mem hc))

end MapLemmas

/-! ### The scan of `findLRU` -/

theorem foldl_findLRUStep_spec (scan : List (CacheItem δ)) :
    ∀ acc : Option (CacheItem δ) × Int,
      (∀ x ∈ scan, (scan.foldl findLRUStep acc).2 ≤ UnixNano x.lastUsed) ∧
      (scan.foldl findLRUStep acc).2 ≤ acc.2 ∧
      (scan.foldl findLRUStep acc = acc ∨
        ∃ ev ∈ scan, scan.foldl findLRUStep acc = (some ev, UnixNano ev.lastUsed) ∧
          UnixNano ev.lastUsed < acc.2) := by
  induction scan with
  | nil => intro acc; simp
  | cons y ys ih =>
    intro acc
    rw [List.foldl_cons]
    obtain ⟨h1, h2, h3⟩ := ih (findLRUStep acc y)
    have hstep : (findLRUStep acc y).2 ≤ acc.2 ∧ (findLRUStep acc y).2 ≤ UnixNano y.lastUsed := by
      unfold findLRUStep
      by_cases hlt : UnixNano y.lastUsed < acc.2
      · simp [hlt]; omega
      · simp [hlt]; omega
    refine ⟨?_, le_trans h2 hstep.1, ?_⟩
    · intro x hx
      rcases List.mem_cons.1 hx with rfl | hx
      · exact le_trans h2 hstep.2
      · exact h1 x hx
    · by_cases hlt : UnixNano y.lastUsed < acc.2
      · have hy : findLRUStep acc y = (some y, UnixNano y.lastUsed) := by
          simp [findLRUStep, hlt]
        rcases h3 with h3 | ⟨ev, hev, h3, h4⟩
        · right
          exact ⟨y, List.mem_cons_self _ _, by rw [h3, hy], hlt⟩
        · right
          refine ⟨ev, List.mem_cons_of_mem _ hev, h3, ?_⟩
          rw [hy] at h4
          exact lt_trans h4 hlt
      · have hy : findLRUStep acc y = acc := by
          simp [findLRUStep, hlt]
        rw [hy] at h3 ⊢
        rcases h3 with h3 | ⟨ev, hev, h3, h4⟩
        · left; exact h3
        · right; exact ⟨ev, List.mem_cons_of_mem _ hev, h3, h4⟩

theorem findLRU_some_spec {scan : List (CacheItem δ)} {ev : CacheItem δ}
    (h : findLRU scan = some ev) :
    ev ∈ scan ∧ UnixNano ev.lastUsed < maxInt64 ∧
      ∀ x ∈ scan, UnixNano ev.lastUsed ≤ UnixNano x.lastUsed := by
  obtain ⟨h1, _, h3⟩ := foldl_findLRUStep_spec scan (none, maxInt64)
  unfold findLRU at h
  rcases h3 with h3 | ⟨ev', hev, h3, h4⟩
  · rw [h3] at h; simp at h
  · rw [h3] at h h1
    simp only [Option.some.injEq] at h
    subst h
    exact ⟨hev, h4, h1⟩

theorem findLRU_eq_none_iff (scan : List (CacheItem δ)) :
    findLRU scan = none ↔ ∀ x ∈ scan, maxInt64 ≤ UnixNano x.lastUsed := by
  obtain ⟨h1, _, h3⟩ := foldl_findLRUStep_spec scan (none, maxInt64)
  unfold findLRU
  constructor
  · intro h
    rcases h3 with h3 | ⟨ev', _, h3, _⟩
    · rw [h3] at h1; exact h1
    · rw [h3] at h; simp at h
  · intro h
    rcases h3 with h3 | ⟨ev', hev, _, h4⟩
    · rw [h3]
    · exact absurd (h ev' hev) (not_le.2 h4)

theorem findLRU_isSome_of_exists {scan : List (CacheItem δ)}
    (h : ∃ x ∈ scan, UnixNano x.lastUsed < maxInt64) : ∃ ev, findLRU scan = some ev := by
  cases hf : findLRU scan with
  | some ev => exact ⟨ev, rfl⟩
  | none =>
    obtain ⟨x, hx, hlt⟩ := h
    exact absurd ((findLRU_eq_none_iff scan).1 hf x hx) (not_le.2 hlt)

/-! ### The paths of `updateCache` -/

theorem updateCache_below (c : Cache δ) (scan : List (CacheItem δ)) (tag : String) (data : δ)
    (h : c.len < c.size) :
    c.updateCache scan tag data = (c, .ok { data := data, tag := tag, lastUsed := zeroTime }) := by
  simp [Cache.updateCache, not_le.2 h]

theorem updateCache_evict (c : Cache δ) (scan : List (CacheItem δ)) (tag : String) (data : δ)
    (ev : CacheItem δ) (h : c.size ≤ c.len) (hf : findLRU scan = some ev) :
    c.updateCache scan tag data =
      ({ c with items := (c.items.erase ev.tag).insert tag
                  { data := data, tag := tag, lastUsed := zeroTime } },
        .ok { data := data, tag := tag, lastUsed := zeroTime }) := by
  simp [Cache.updateCache, h, hf, Cache.evict]

theorem updateCache_fault (c : Cache δ) (scan : List (CacheItem δ)) (tag : String) (data : δ)
    (h : c.size ≤ c.len) (hf : findLRU scan = none) :
    c.updateCache scan tag data = (c, .error .nilDereference) := by
  simp [Cache.updateCache, h, hf, Cache.evict]

/-! ### The paths of `AddItem` -/

theorem AddItem_hit (c : Cache δ) (scan : List (CacheItem δ)) (tag : String) (data : δ)
    (item : CacheItem δ) (h : c.items.lookup tag = some item) :
    c.AddItem scan tag data =
      ({ c with
          uses := wrapInt64 (c.uses + 1)
          hits := wrapInt64 (c.hits + 1)
          backingStore := c.backingStore.addItem tag data
          items := c.items.replace tag
            { data := data, tag := item.tag, lastUsed := c.clock.Now } },
        .ok ()) := by
  simp [Cache.AddItem, Cache.searchCache, h, updateCacheItemLRU]

theorem AddItem_miss (c : Cache δ) (scan : List (CacheItem δ)) (tag : String) (data : δ)
    (h : c.items.lookup tag = none) :
    c.AddItem scan tag data =
      ({ c with
          uses := wrapInt64 (c.uses + 1)
          misses := wrapInt64 (c.misses + 1)
          backingStore :=
            match c.backingStore.getItem tag with
            | some _ => c.backingStore
            | none => c.backingStore.addItem tag data },
        .error .nilDereference) := by
  simp only [Cache.AddItem, Cache.searchCache, h, updateCacheItemLRU]
  cases c.backingStore.getItem tag <;> rfl

/-! ### The paths of `GetItem` -/

theorem GetItem_hit (c : Cache δ) (scan : List (CacheItem δ)) (tag : String)
    (item : CacheItem δ) (h : c.items.lookup tag = some item) :
    c.GetItem scan tag =
      ({ c with
          uses := wrapInt64 (c.uses + 1)
          hits := wrapInt64 (c.hits + 1)
          items := c.items.replace tag { item with lastUsed := c.clock.Now } },
        .ok (some { item with lastUsed := c.clock.Now }, none)) := by
  simp [Cache.GetItem, Cache.searchCache, h, updateCacheItemLRU]

theorem GetItem_absent (c : Cache δ) (scan : List (CacheItem δ)) (tag : String)
    (h : c.items.lookup tag = none) (hs : c.backingStore.getItem tag = none) :
    c.GetItem scan tag =
      ({ c with uses := wrapInt64 (c.uses + 1), misses := wrapInt64 (c.misses + 1) },
        .ok (none, some .ErrDataNotInBackingStore)) := by
  simp [Cache.GetItem, Cache.searchCache, h, hs]

theorem GetItem_below (c : Cache δ) (scan : List (CacheItem δ)) (tag : String) (v : δ)
    (h : c.items.lookup tag = none) (hs : c.backingStore.getItem tag = some v)
    (hlen : c.len < c.size) :
    c.GetItem scan tag =
      ({ c with uses := wrapInt64 (c.uses + 1), misses := wrapInt64 (c.misses + 1) },
        .ok (some { data := v, tag := tag, lastUsed := c.clock.Now }, none)) := by
  have hu := updateCache_below ({ c with
      uses := wrapInt64 (c.uses + 1), misses := wrapInt64 (c.misses + 1) })
    scan tag v hlen
  simp only [Cache.GetItem, Cache.searchCache, h, hs]
  rw [hu]
  simp [updateCacheItemLRU, replace_of_lookup_none _ h]

theorem GetItem_evict (c : Cache δ) (scan : List (CacheItem δ)) (tag : String) (v : δ)
    (ev : CacheItem δ)
    (h : c.items.lookup tag = none) (hs : c.backingStore.getItem tag = some v)
    (hlen : c.size ≤ c.len) (hf : findLRU scan = some ev) :
    c.GetItem scan tag =
      ({ c with
          uses := wrapInt64 (c.uses + 1)
          misses := wrapInt64 (c.misses + 1)
          items := ((c.items.erase ev.tag).insert tag
              { data := v, tag := tag, lastUsed := zeroTime }).replace tag
              { data := v, tag := tag, lastUsed := c.clock.Now } },
        .ok (some { data := v, tag := tag, lastUsed := c.clock.Now }, none)) := by
  have hu := updateCache_evict ({ c with
      uses := wrapInt64 (c.uses + 1), misses := wrapInt64 (c.misses + 1) })
    scan tag v ev hlen hf
  simp only [Cache.GetItem, Cache.searchCache, h, hs]
  rw [hu]
  simp [updateCacheItemLRU]

theorem GetItem_fault (c : Cache δ) (scan : List (CacheItem δ)) (tag : String) (v : δ)
    (h : c.items.lookup tag = none) (hs : c.backingStore.getItem tag = some v)
    (hlen : c.size ≤ c.len) (hf : findLRU scan = none) :
    c.GetItem scan tag =
      ({ c with uses := wrapInt64 (c.uses + 1), misses := wrapInt64 (c.misses + 1) },
        .error .nilDereference) := by
  have hu := updateCache_fault ({ c with
      uses := wrapInt64 (c.uses + 1), misses := wrapInt64 (c.misses + 1) })
    scan tag v hlen hf
  simp only [Cache.GetItem, Cache.searchCache, h, hs]
  rw [hu]

/-! ### Resident items and map sizes -/

theorem mem_values_iff (c : Cache δ) (x : CacheItem δ) :
    x ∈ c.values ↔ ∃ k, c.items.lookup k = some x := by
  unfold Cache.values
  constructor
  · intro h
    obtain ⟨⟨k, v⟩, hmem, hv⟩ := List.mem_map.1 h
    simp only at hv
    subst hv
    exact ⟨k, AList.mem_lookup_iff.2 hmem⟩
  · rintro ⟨k, hk⟩
    exact List.mem_map.2 ⟨⟨k, x⟩, AList.mem_lookup_iff.1 hk, rfl⟩

theorem mem_of_lookup_eq_some {β : Type} {s : AList (fun _ : String => β)} {k : String} {v : β}
    (h : s.lookup k = some v) : k ∈ s := by
  rw [← AList.lookup_isSome, h]; rfl

theorem length_keys_insert_erase_le {β : Type} (s : AList (fun _ : String => β))
    (ev t : String) (x : β) (hev : ev ∈ s) :
    ((s.erase ev).insert t x).keys.length ≤ s.keys.length := by
  rw [AList.keys_insert, List.length_cons, AList.keys_erase]
  have h1 : ((s.keys.erase ev).erase t).length ≤ (s.keys.erase ev).length :=
    List.length_erase_le _ _
  have h2 : (s.keys.erase ev).length = s.keys.length - 1 :=
    List.length_erase_of_mem (AList.mem_keys.1 hev)
  have h3 : 0 < s.keys.length := List.length_pos_of_mem (AList.mem_keys.1 hev)
  omega

theorem length_keys_insert_erase_eq {β : Type} (s : AList (fun _ : String => β))
    (ev t : String) (x : β) (hev : ev ∈ s) (ht : t ∉ s) :
    ((s.erase ev).insert t x).keys.length = s.keys.length := by
  rw [AList.keys_insert, List.length_cons, AList.keys_erase]
  have h0 : t ∉ s.keys.erase ev := fun hmem => ht (AList.mem_keys.2 (List.mem_of_mem_erase hmem))
  rw [List.erase_of_not_mem h0]
  have h2 : (s.keys.erase ev).length = s.keys.length - 1 :=
    List.length_erase_of_mem (AList.mem_keys.1 hev)
  have h3 : 0 < s.keys.length := List.length_pos_of_mem (AList.mem_keys.1 hev)
  omega

/-- The victim found by a scan of the resident items is resident under its own tag. -/
theorem findLRU_resident (c : Cache δ) (scan : List (CacheItem δ)) (ev : CacheItem δ)
    (hk : c.TagsAreKeys) (hs : c.ScanOf scan) (hf : findLRU scan = some ev) :
    c.items.lookup ev.tag = some ev := by
  have hmem : ev ∈ c.values := (List.Perm.mem_iff hs).1 (findLRU_some_spec hf).1
  obtain ⟨k, hk'⟩ := (mem_values_iff c ev).1 hmem
  rw [hk k ev hk']
  exact hk'
/-! ### Preservation of the capacity invariant -/

theorem tagsAreKeys_replace (s : AList (fun _ : String => CacheItem δ)) (k : String)
    (x : CacheItem δ) (hx : x.tag = k)
    (h : ∀ k' item, s.lookup k' = some item → item.tag = k') :
    ∀ k' item, (s.replace k x).lookup k' = some item → item.tag = k' := by
  intro k' item hl
  by_cases hk : k' = k
  · subst hk
    rw [lookup_replace_self] at hl
    cases hs : s.lookup k' with
    | none => rw [hs] at hl; simp at hl
    | some y =>
      rw [hs] at hl
      simp only [Option.map_some', Option.some.injEq] at hl
      rw [← hl]; exact hx
  · rw [lookup_replace_ne s hk] at hl
    exact h k' item hl

theorem tagsAreKeys_insert_erase (s : AList (fun _ : String => CacheItem δ)) (ev : String)
    (x : CacheItem δ)
    (h : ∀ k' item, s.lookup k' = some item → item.tag = k') :
    ∀ k' item, ((s.erase ev).insert x.tag x).lookup k' = some item → item.tag = k' := by
  intro k' item hl
  by_cases hk : k' = x.tag
  · subst hk
    rw [AList.lookup_insert] at hl
    simp only [Option.some.injEq] at hl
    rw [← hl]
  · rw [AList.lookup_insert_ne hk] at hl
    by_cases hev : k' = ev
    · subst hev
      rw [AList.lookup_erase] at hl
      simp at hl
    · rw [AList.lookup_erase_ne hev] at hl
      exact h k' item hl

theorem updateCache_size (c : Cache δ) (scan : List (CacheItem δ)) (tag : String) (data : δ) :
    (c.updateCache scan tag data).1.size = c.size := by
  by_cases hlen : c.len < c.size
  · rw [updateCache_below c scan tag data hlen]
  · cases hf : findLRU scan with
    | none => rw [updateCache_fault c scan tag data (not_lt.1 hlen) hf]
    | some ev => rw [updateCache_evict c scan tag data ev (not_lt.1 hlen) hf]

theorem updateCache_CapInv (c : Cache δ) (scan : List (CacheItem δ)) (tag : String) (data : δ)
    (hs : c.ScanOf scan) (hinv : c.CapInv) : (c.updateCache scan tag data).1.CapInv := by
  by_cases hlen : c.len < c.size
  · rw [updateCache_below c scan tag data hlen]; exact hinv
  · cases hf : findLRU scan with
    | none => rw [updateCache_fault c scan tag data (not_lt.1 hlen) hf]; exact hinv
    | some ev =>
      rw [updateCache_evict c scan tag data ev (not_lt.1 hlen) hf]
      have hres := findLRU_resident c scan ev hinv.1 hs hf
      refine ⟨?_, ?_⟩
      · exact tagsAreKeys_insert_erase c.items ev.tag
          { data := data, tag := tag, lastUsed := zeroTime } hinv.1
      · have hle := length_keys_insert_erase_le c.items ev.tag tag
          ({ data := data, tag := tag, lastUsed := zeroTime } : CacheItem δ)
          (mem_of_lookup_eq_some hres)
        have h2 := hinv.2
        simp only [Cache.len] at h2 ⊢
        omega

theorem AddItem_size (c : Cache δ) (scan : List (CacheItem δ)) (tag : String) (data : δ) :
    (c.AddItem scan tag data).1.size = c.size := by
  cases h : c.items.lookup tag with
  | none => rw [AddItem_miss c scan tag data h]
  | some item => rw [AddItem_hit c scan tag data item h]

theorem AddItem_CapInv (c : Cache δ) (scan : List (CacheItem δ)) (tag : String) (data : δ)
    (hinv : c.CapInv) : (c.AddItem scan tag data).1.CapInv := by
  cases h : c.items.lookup tag with
  | none => rw [AddItem_miss c scan tag data h]; exact hinv
  | some item =>
    rw [AddItem_hit c scan tag data item h]
    refine ⟨?_, ?_⟩
    · exact tagsAreKeys_replace c.items tag _ (hinv.1 tag item h) hinv.1
    · have h2 := hinv.2
      simp only [Cache.len, AList.keys_replace] at h2 ⊢
      exact h2

theorem GetItem_size (c : Cache δ) (scan : List (CacheItem δ)) (tag : String) :
    (c.GetItem scan tag).1.size = c.size := by
  cases h : c.items.lookup tag with
  | some item => rw [GetItem_hit c scan tag item h]
  | none =>
    cases hst : c.backingStore.getItem tag with
    | none => rw [GetItem_absent c scan tag h hst]
    | some v =>
      by_cases hlen : c.len < c.size
      · rw [GetItem_below c scan tag v h hst hlen]
      · cases hf : findLRU scan with
        | none => rw [GetItem_fault c scan tag v h hst (not_lt.1 hlen) hf]
        | some ev => rw [GetItem_evict c scan tag v ev h hst (not_lt.1 hlen) hf]

theorem GetItem_CapInv (c : Cache δ) (scan : List (CacheItem δ)) (tag : String)
    (hs : c.ScanOf scan) (hinv : c.CapInv) : (c.GetItem scan tag).1.CapInv := by
  cases h : c.items.lookup tag with
  | some item =>
    rw [GetItem_hit c scan tag item h]
    refine ⟨?_, ?_⟩
    · exact tagsAreKeys_replace c.items tag _ (hinv.1 tag item h) hinv.1
    · have h2 := hinv.2
      simp only [Cache.len, AList.keys_replace] at h2 ⊢
      exact h2
  | none =>
    cases hst : c.backingStore.getItem tag with
    | none => rw [GetItem_absent c scan tag h hst]; exact hinv
    | some v =>
      by_cases hlen : c.len < c.size
      · rw [GetItem_below c scan tag v h hst hlen]; exact hinv
      · cases hf : findLRU scan with
        | none => rw [GetItem_fault c scan tag v h hst (not_lt.1 hlen) hf]; exact hinv
        | some ev =>
          rw [GetItem_evict c scan tag v ev h hst (not_lt.1 hlen) hf]
          have hres := findLRU_resident c scan ev hinv.1 hs hf
          refine ⟨?_, ?_⟩
          · exact tagsAreKeys_replace _ tag _ rfl
              (tagsAreKeys_insert_erase c.items ev.tag
                { data := v, tag := tag, lastUsed := zeroTime } hinv.1)
          · have hle := length_keys_insert_erase_le c.items ev.tag tag
              ({ data := v, tag := tag, lastUsed := zeroTime } : CacheItem δ)
              (mem_of_lookup_eq_some hres)
            have h2 := hinv.2
            simp only [Cache.len, AList.keys_replace] at h2 ⊢
            omega

/-! ### A cache that starts empty -/

theorem step_of_empty (c : Cache δ) (call : Call δ) (hsize : 1 ≤ c.size)
    (hempty : c.items = ∅) :
    (c.step call).items = ∅ ∧ (c.step call).size = c.size := by
  have hlook : ∀ (clk : Clock) (t : String),
      ({ c with clock := clk } : Cache δ).items.lookup t = none := by
    intro clk t
    show c.items.lookup t = none
    rw [hempty]; exact AList.lookup_empty t
  have hlen : ∀ clk : Clock, ({ c with clock := clk } : Cache δ).len
      < ({ c with clock := clk } : Cache δ).size := by
    intro clk
    show ((c.items.keys.length : Int)) < c.size
    rw [hempty, AList.keys_empty]
    simp only [List.length_nil, Nat.cast_zero]
    omega
  unfold Cache.step
  cases hop : call.op with
  | AddItem tag data =>
    simp only
    rw [AddItem_miss _ call.scan tag data (hlook _ tag)]
    exact ⟨hempty, rfl⟩
  | GetItem tag =>
    simp only
    cases hst : ({ c with clock := { Now := call.now } } : Cache δ).backingStore.getItem tag with
    | none =>
      rw [GetItem_absent _ call.scan tag (hlook _ tag) hst]
      exact ⟨hempty, rfl⟩
    | some v =>
      rw [GetItem_below _ call.scan tag v (hlook _ tag) hst (hlen _)]
      exact ⟨hempty, rfl⟩

theorem run_of_empty (calls : List (Call δ)) :
    ∀ c : Cache δ, 1 ≤ c.size → c.items = ∅ →
      (c.run calls).items = ∅ ∧ (c.run calls).size = c.size := by
  induction calls with
  | nil => intro c _ hempty; exact ⟨hempty, rfl⟩
  | cons call rest ih =>
    intro c hsize hempty
    obtain ⟨h1, h2⟩ := step_of_empty c call hsize hempty
    have := ih (c.step call) (by rw [h2]; exact hsize) h1
    show ((c.step call).run rest).items = ∅ ∧ ((c.step call).run rest).size = c.size
    rw [← h2]
    exact this
theorem AddItem_len (c : Cache δ) (scan : List (CacheItem δ)) (tag : String) (data : δ) :
    (c.AddItem scan tag data).1.len = c.len := by
  cases h : c.items.lookup tag with
  | none => rw [AddItem_miss c scan tag data h]; rfl
  | some item =>
    rw [AddItem_hit c scan tag data item h]
    simp only [Cache.len, AList.keys_replace]

theorem AddItem_TagsAreKeys (c : Cache δ) (scan : List (CacheItem δ)) (tag : String) (data : δ)
    (hk : c.TagsAreKeys) : (c.AddItem scan tag data).1.TagsAreKeys := by
  cases h : c.items.lookup tag with
  | none => rw [AddItem_miss c scan tag data h]; exact hk
  | some item =>
    rw [AddItem_hit c scan tag data item h]
    exact tagsAreKeys_replace c.items tag _ (hk tag item h) hk

/-! ## Capacity -/

/-- C1, as stated, fails for `updateCache` and `GetItem`: `evict` deletes under the victim's
tag, so on a full cache of size 1 whose only item, tagged `"a"`, is stored under the key `"x"`,
nothing is deleted and the admission of `"c"` leaves two items in a cache of size 1. -/
theorem admission_into_mis_keyed_cache_exceeds_size :
    1 ≤ misKeyedCache.size ∧ misKeyedCache.len ≤ misKeyedCache.size ∧
      misKeyedCache.ScanOf [itemA] ∧
      (misKeyedCache.updateCache [itemA] "c" 4).1.len = 2 ∧
      ¬ (misKeyedCache.updateCache [itemA] "c" 4).1.len ≤ misKeyedCache.size ∧
      (misKeyedCache.GetItem [itemA] "c").1.len = 2 ∧
      ¬ (misKeyedCache.GetItem [itemA] "c").1.len ≤ misKeyedCache.size :=
  ⟨by decide, by decide, List.Perm.refl _, by decide, by decide, by decide, by decide⟩

/-- C1, amended. Capacity invariant: a cache built by `NewLRUCache` or `NewLRUCacheWithClock`
with a positive size holds at most `size` items after every call of every finite sequence of
`AddItem` and `GetItem` calls (whatever the clock reads and in whatever order the map is
scanned); `AddItem` keeps `len(items) <= size` on every cache of size at least 1; `GetItem` and
`updateCache` keep it on every such cache whose items are each stored under their own tag, a
property that all three keep as well. -/
theorem capacity_invariant (size : Int) (hsize : 1 ≤ size) (clock realClock : Clock) :
    (∀ (calls : List (Call δ)) (n : Nat),
        ((NewLRUCache size realClock : Cache δ).run (calls.take n)).len ≤ size ∧
        ((NewLRUCacheWithClock size clock realClock : Cache δ).run (calls.take n)).len ≤ size) ∧
    (∀ (c : Cache δ) (scan : List (CacheItem δ)) (tag : String) (data : δ),
        c.size = size → c.len ≤ c.size →
          (c.AddItem scan tag data).1.len ≤ size ∧ (c.AddItem scan tag data).1.size = size ∧
          (c.TagsAreKeys → (c.AddItem scan tag data).1.TagsAreKeys)) ∧
    (∀ (c : Cache δ) (scan : List (CacheItem δ)) (tag : String) (data : δ),
        c.size = size → c.ScanOf scan → c.TagsAreKeys → c.len ≤ c.size →
          ((c.GetItem scan tag).1.len ≤ size ∧ (c.GetItem scan tag).1.TagsAreKeys ∧
            (c.GetItem scan tag).1.size = size) ∧
          ((c.updateCache scan tag data).1.len ≤ size ∧
            (c.updateCache scan tag data).1.TagsAreKeys ∧
            (c.updateCache scan tag data).1.size = size)) := by
  have hfresh : ∀ (c : Cache δ) (calls : List (Call δ)), c.size = size → c.items = ∅ →
      (c.run calls).len ≤ size := by
    intro c calls hc hempty
    obtain ⟨h1, _⟩ := run_of_empty calls c (by rw [hc]; exact hsize) hempty
    unfold Cache.len
    rw [h1, AList.keys_empty]
    simp only [List.length_nil, Nat.cast_zero]
    omega
  refine ⟨fun calls n => ⟨hfresh _ _ rfl rfl, hfresh _ _ rfl rfl⟩, ?_, ?_⟩
  · intro c scan tag data hc hlen
    refine ⟨?_, by rw [AddItem_size, hc], AddItem_TagsAreKeys c scan tag data⟩
    rw [AddItem_len, ← hc]
    exact hlen
  · intro c scan tag data hc hs hk hlen
    have hinv : c.CapInv := ⟨hk, hlen⟩
    have hg := GetItem_CapInv c scan tag hs hinv
    have hu := updateCache_CapInv c scan tag data hs hinv
    have sg := GetItem_size c scan tag
    have su := updateCache_size c scan tag data
    refine ⟨⟨?_, hg.1, by rw [sg, hc]⟩, ⟨?_, hu.1, by rw [su, hc]⟩⟩
    · have := hg.2; rw [sg, hc] at this; exact this
    · have := hu.2; rw [su, hc] at this; exact this

/-- The items of `fullCache` are stored under their own tags. -/
theorem fullCache_tagsAreKeys : fullCache.TagsAreKeys := by
  intro k item h
  by_cases hb : k = "b"
  · subst hb
    have h2 : fullCache.items.lookup "b" = some itemB := rfl
    rw [h2] at h
    rw [← Option.some.inj h]; rfl
  · by_cases ha : k = "a"
    · subst ha
      have h2 : fullCache.items.lookup "a" = some itemA := rfl
      rw [h2] at h
      rw [← Option.some.inj h]; rfl
    · exfalso
      have h2 : fullCache.items.lookup k = none := by
        show (((∅ : AList (fun _ : String => CacheItem Nat)).insert "a" itemA).insert
          "b" itemB).lookup k = none
        rw [AList.lookup_insert_ne hb, AList.lookup_insert_ne ha, AList.lookup_empty]
      rw [h2] at h; exact Option.noConfusion h

/-- Witness of C1: three calls on a cache of size 5; a write on the full cache of size 2 of
`TestUpdateCache/evicted_case`; and an admission into it. -/
theorem capacity_invariant_witness :
    (1 : Int) ≤ 5 ∧ (freshCache.run (sampleCalls.take 3)).len ≤ 5 ∧
      (1 : Int) ≤ 2 ∧ fullCache.len ≤ fullCache.size ∧ fullCache.ScanOf [itemB, itemA] ∧
      fullCache.TagsAreKeys ∧
      (fullCache.AddItem [itemB, itemA] "a" 7).1.len ≤ 2 ∧
      (fullCache.updateCache [itemB, itemA] "c" 4).1.len ≤ 2 :=
  ⟨by decide,
    ((capacity_invariant 5 (by decide) { Now := 100 } { Now := 100 }).1 sampleCalls 3).1,
    by decide, by decide, List.Perm.refl _, fullCache_tagsAreKeys,
    ((capacity_invariant 2 (by decide) { Now := 100 } { Now := 100 }).2.1 fullCache
      [itemB, itemA] "a" 7 rfl (by decide)).1,
    ((capacity_invariant 2 (by decide) { Now := 100 } { Now := 100 }).2.2 fullCache
      [itemB, itemA] "c" 4 rfl (List.Perm.refl _) fullCache_tagsAreKeys (by decide)).2.1⟩

/-! ## Writes -/

/-- C2 (refuted by the code). `AddItem` on a tag that is not resident stops with a nil
dereference: on the cache built by `NewLRUCache(5)`, which has positive size and holds no more
than `size` items, `AddItem("a", 0)` faults, as it does in `cmd/cache/main.go`. -/
theorem AddItem_faults_on_fresh_cache :
    0 < freshCache.size ∧ freshCache.len ≤ freshCache.size ∧
      (freshCache.AddItem [] "a" 0).2 = .error .nilDereference :=
  ⟨by decide, by decide, rfl⟩

/-- C3 (refuted by the code). When the tag is not resident and the backing store already holds
another value for it, `AddItem` leaves the old value in the backing store. -/
theorem AddItem_keeps_stale_store_value :
    storedCache.items.lookup "a" = none ∧
      storedCache.backingStore.getItem "a" = some 1 ∧
      (storedCache.AddItem [] "a" 2).1.backingStore.getItem "a" = some 1 ∧
      (storedCache.AddItem [] "a" 2).1.backingStore.getItem "a" ≠ some 2 :=
  ⟨rfl, by decide, by decide, by decide⟩

/-- C4 (refuted by the code). On a cache that does not hold the tag, `AddItem` stops with a nil
dereference; and taking up the cache as the stopped call left it, `GetItem` serves the value the
backing store held before the write, not the value written. -/
theorem read_after_write_fails :
    (freshCache.AddItem [] "a" 0).2 = .error .nilDereference ∧
      (storedCache.AddItem [] "a" 2).2 = .error .nilDereference ∧
      ((storedCache.AddItem [] "a" 2).1.GetItem [] "a").2 =
        .ok (some { data := 1, tag := "a", lastUsed := 100 }, none) :=
  ⟨rfl, rfl, rfl⟩
/-! ## Reads -/

/-- When the cache can admit, a scan of the resident items at capacity finds a victim. -/
theorem victim_of_canAdmit (c : Cache δ) (scan : List (CacheItem δ)) (hs : c.ScanOf scan)
    (hadm : c.CanAdmit) (hlen : c.size ≤ c.len) : ∃ ev, findLRU scan = some ev := by
  rcases hadm with hlt | ⟨x, hx, hlt⟩
  · omega
  · exact findLRU_isSome_of_exists ⟨x, (List.Perm.mem_iff hs).2 hx, hlt⟩

/-- What `GetItem` returns when the tag is not resident, the backing store holds it and the
admission finds room or a victim. -/
theorem GetItem_served (c : Cache δ) (scan : List (CacheItem δ)) (tag : String) (v : δ)
    (h : c.items.lookup tag = none) (hst : c.backingStore.getItem tag = some v)
    (hs : c.ScanOf scan) (hadm : c.CanAdmit) :
    (c.GetItem scan tag).2 =
        .ok (some { data := v, tag := tag, lastUsed := c.clock.Now }, none) ∧
      (c.GetItem scan tag).1.uses = wrapInt64 (c.uses + 1) ∧
      (c.GetItem scan tag).1.misses = wrapInt64 (c.misses + 1) ∧
      (c.GetItem scan tag).1.hits = c.hits := by
  by_cases hlen : c.len < c.size
  · rw [GetItem_below c scan tag v h hst hlen]
    exact ⟨rfl, rfl, rfl, rfl⟩
  · obtain ⟨ev, hf⟩ := victim_of_canAdmit c scan hs hadm (not_lt.1 hlen)
    rw [GetItem_evict c scan tag v ev h hst (not_lt.1 hlen) hf]
    exact ⟨rfl, rfl, rfl, rfl⟩

/-- Away from the scans that find no victim, `GetItem` returns `ErrDataNotInBackingStore` with
a nil item exactly when the tag is absent from both `items` and the backing store, and a
non-nil item with a nil error otherwise. -/
theorem GetItem_error_iff_absent (c : Cache δ) (scan : List (CacheItem δ)) (tag : String)
    (hs : c.ScanOf scan) :
    ((c.GetItem scan tag).2 = .ok (none, some .ErrDataNotInBackingStore) ↔
        (c.items.lookup tag = none ∧ c.backingStore.getItem tag = none)) ∧
    (¬ (c.items.lookup tag = none ∧ c.backingStore.getItem tag = none) →
        (c.items.lookup tag ≠ none ∨ c.CanAdmit) →
        ∃ item, (c.GetItem scan tag).2 = .ok (some item, none)) := by
  cases h : c.items.lookup tag with
  | some item =>
    rw [GetItem_hit c scan tag item h]
    refine ⟨⟨fun hr => ?_, fun hr => ?_⟩, fun _ _ => ⟨_, rfl⟩⟩
    · simp at hr
    · exact Option.noConfusion hr.1
  | none =>
    cases hst : c.backingStore.getItem tag with
    | none =>
      rw [GetItem_absent c scan tag h hst]
      exact ⟨⟨fun _ => ⟨rfl, rfl⟩, fun _ => rfl⟩, fun hn _ => absurd ⟨rfl, rfl⟩ hn⟩
    | some v =>
      refine ⟨⟨fun hr => ?_, fun hr => ?_⟩, fun _ hadm => ?_⟩
      · exfalso
        by_cases hlen : c.len < c.size
        · rw [GetItem_below c scan tag v h hst hlen] at hr
          simp at hr
        · cases hf : findLRU scan with
          | none =>
            rw [GetItem_fault c scan tag v h hst (not_lt.1 hlen) hf] at hr
            exact Except.noConfusion hr
          | some ev =>
            rw [GetItem_evict c scan tag v ev h hst (not_lt.1 hlen) hf] at hr
            simp at hr
      · exact Option.noConfusion hr.2
      · rcases hadm with hres | hadm
        · exact absurd rfl hres
        · exact ⟨_, (GetItem_served c scan tag v h hst hs hadm).1⟩

/-- C5 (refuted by the code). On a full cache of size 2 whose residents are both stamped
`math.MaxInt64`, `findLRU` takes no item, `evict` dereferences the nil victim and `GetItem` of a
tag that the backing store holds stops with a fault: it returns neither the error nor an
item. -/
theorem GetItem_returns_nothing_without_victim :
    0 < lastInstantPair.size ∧ lastInstantPair.len ≤ lastInstantPair.size ∧
      lastInstantPair.ScanOf [itemCLast, itemBLast] ∧
      lastInstantPair.items.lookup "a" = none ∧
      lastInstantPair.backingStore.getItem "a" = some 1 ∧
      findLRU [itemCLast, itemBLast] = none ∧
      (lastInstantPair.GetItem [itemCLast, itemBLast] "a").2 = .error .nilDereference ∧
      (lastInstantPair.GetItem [itemCLast, itemBLast] "a").2 ≠
        .ok (none, some .ErrDataNotInBackingStore) ∧
      ¬ ∃ item, (lastInstantPair.GetItem [itemCLast, itemBLast] "a").2 =
        .ok (some item, none) := by
  have h2 : (lastInstantPair.GetItem [itemCLast, itemBLast] "a").2 =
      .error .nilDereference := rfl
  refine ⟨by decide, by decide, List.Perm.refl _, rfl, by decide, rfl, h2, ?_, ?_⟩
  · rw [h2]; exact fun h => Except.noConfusion h
  · rintro ⟨item, h⟩
    rw [h2] at h
    exact Except.noConfusion h

/-- C6, as stated, fails: the counters are Go `int`s, and a hit on a cache whose `uses` and
`hits` stand at `math.MaxInt64` wraps both to `math.MinInt64` instead of adding one. -/
theorem GetItem_hit_wraps_counters :
    saturatedHits.items.lookup "a" = some itemA ∧
      saturatedHits.uses = maxInt64 ∧ saturatedHits.hits = maxInt64 ∧
      (saturatedHits.GetItem [itemB, itemA] "a").1.uses = minInt64 ∧
      (saturatedHits.GetItem [itemB, itemA] "a").1.hits = minInt64 ∧
      (saturatedHits.GetItem [itemB, itemA] "a").1.uses ≠ saturatedHits.uses + 1 ∧
      (saturatedHits.GetItem [itemB, itemA] "a").1.hits ≠ saturatedHits.hits + 1 :=
  ⟨rfl, by decide, by decide, by decide, by decide, by decide, by decide⟩

/-- C6, amended. Read hit: when `tag` is resident, `GetItem(tag)` returns the resident item
with a nil error; `uses` and `hits` are incremented in Go `int` arithmetic, that is, they grow
by exactly one unless the counter stands at `math.MaxInt64`, and `misses` is unchanged; the
item, as returned and as resident, has `lastUsed` set to the clock reading and its tag and data
unchanged; every other resident item, the set of resident tags and the backing store are
unchanged. -/
theorem GetItem_hit_spec (c : Cache δ) (scan : List (CacheItem δ)) (tag : String)
    (item : CacheItem δ) (h : c.items.lookup tag = some item) :
    (c.GetItem scan tag).2 = .ok (some { item with lastUsed := c.clock.Now }, none) ∧
      (c.GetItem scan tag).1.items.lookup tag = some { item with lastUsed := c.clock.Now } ∧
      ({ item with lastUsed := c.clock.Now } : CacheItem δ).tag = item.tag ∧
      ({ item with lastUsed := c.clock.Now } : CacheItem δ).data = item.data ∧
      ({ item with lastUsed := c.clock.Now } : CacheItem δ).lastUsed = c.clock.Now ∧
      (c.GetItem scan tag).1.uses = wrapInt64 (c.uses + 1) ∧
      (c.GetItem scan tag).1.hits = wrapInt64 (c.hits + 1) ∧
      (InInt64 (c.uses + 1) → (c.GetItem scan tag).1.uses = c.uses + 1) ∧
      (InInt64 (c.hits + 1) → (c.GetItem scan tag).1.hits = c.hits + 1) ∧
      (c.GetItem scan tag).1.misses = c.misses ∧
      (∀ k, k ≠ tag → (c.GetItem scan tag).1.items.lookup k = c.items.lookup k) ∧
      (c.GetItem scan tag).1.items.keys = c.items.keys ∧
      (c.GetItem scan tag).1.backingStore = c.backingStore := by
  rw [GetItem_hit c scan tag item h]
  refine ⟨rfl, ?_, rfl, rfl, rfl, rfl, rfl, fun hu => wrapInt64_of_inInt64 hu,
    fun hh => wrapInt64_of_inInt64 hh, rfl, ?_, ?_, rfl⟩
  · show (c.items.replace tag _).lookup tag = _
    rw [lookup_replace_self, h]; rfl
  · intro k hk
    exact lookup_replace_ne c.items hk
  · exact AList.keys_replace _ _ _

/-- Witness of C6: reading `"a"` from the full cache of `TestUpdateCache/evicted_case`. -/
theorem GetItem_hit_spec_witness :
    fullCache.items.lookup "a" = some itemA ∧ InInt64 (fullCache.uses + 1) ∧
      InInt64 (fullCache.hits + 1) ∧
      (fullCache.GetItem [itemB, itemA] "a").2 =
        .ok (some { data := 1, tag := "a", lastUsed := 100 }, none) ∧
      (fullCache.GetItem [itemB, itemA] "a").1.uses = fullCache.uses + 1 ∧
      (fullCache.GetItem [itemB, itemA] "a").1.hits = fullCache.hits + 1 :=
  ⟨rfl, by decide, by decide,
    (GetItem_hit_spec fullCache [itemB, itemA] "a" itemA rfl).1,
    (GetItem_hit_spec fullCache [itemB, itemA] "a" itemA rfl).2.2.2.2.2.2.2.1 (by decide),
    (GetItem_hit_spec fullCache [itemB, itemA] "a" itemA rfl).2.2.2.2.2.2.2.2.1 (by decide)⟩

/-- C7 (refuted by the code). On a full cache of size 1 whose only resident is stamped
`math.MaxInt64`, `GetItem` of a tag held by the backing store finds no victim and stops with a
nil dereference in `evict` instead of returning the item. -/
theorem GetItem_last_instant_faults :
    0 < lastInstantCache.size ∧ lastInstantCache.ScanOf [itemBLast] ∧
      lastInstantCache.items.lookup "a" = none ∧
      lastInstantCache.backingStore.getItem "a" = some 1 ∧
      (lastInstantCache.GetItem [itemBLast] "a").2 = .error .nilDereference :=
  ⟨by decide, List.Perm.refl _, rfl, by decide, rfl⟩
/-! ## Admission -/

/-- C8 (refuted by the code). Below capacity `updateCache` builds the new item without storing
it: after `GetItem("a")` on an empty cache of size 5 whose backing store holds `"a"`, the tag
is still not resident, and the next `GetItem("a")` is a second miss. -/
theorem GetItem_does_not_promote_below_capacity :
    0 < storedCache.size ∧ storedCache.len ≤ storedCache.size ∧
      storedCache.items.lookup "a" = none ∧
      storedCache.backingStore.getItem "a" = some 1 ∧
      (storedCache.GetItem [] "a").2 =
        .ok (some { data := 1, tag := "a", lastUsed := 100 }, none) ∧
      (storedCache.GetItem [] "a").1.items.lookup "a" = none ∧
      ((storedCache.GetItem [] "a").1.GetItem [] "a").1.hits = 0 ∧
      ((storedCache.GetItem [] "a").1.GetItem [] "a").1.misses = 2 :=
  ⟨by decide, by decide, rfl, by decide, rfl, rfl, by decide, by decide⟩

/-- C9 (refuted by the code). Below capacity `updateCache` returns the new item and leaves the
map as it was: on the cache of `TestUpdateCache/no_eviction_case` (size 2, only `"a"` resident)
`updateCache("c", 4)` does not make `"c"` resident and `len(items)` stays 1. -/
theorem updateCache_does_not_insert_below_capacity :
    halfCache.len < halfCache.size ∧ halfCache.ScanOf [itemA] ∧
      halfCache.items.lookup "c" = none ∧
      (halfCache.updateCache [itemA] "c" 4).2 =
        .ok { data := 4, tag := "c", lastUsed := zeroTime } ∧
      (halfCache.updateCache [itemA] "c" 4).1.items.lookup "c" = none ∧
      (halfCache.updateCache [itemA] "c" 4).1.items.lookup "a" = some itemA ∧
      (halfCache.updateCache [itemA] "c" 4).1.len = 1 :=
  ⟨by decide, List.Perm.refl _, rfl, rfl, rfl, rfl, by decide⟩

/-- A scan of the resident items finds the resident whose timestamp is strictly the smallest,
provided that timestamp is below the sentinel. -/
theorem findLRU_unique_min (c : Cache δ) (scan : List (CacheItem δ)) (m : CacheItem δ)
    (hs : c.ScanOf scan) (hm : c.items.lookup m.tag = some m)
    (hmin : ∀ k x, c.items.lookup k = some x → k ≠ m.tag →
      UnixNano m.lastUsed < UnixNano x.lastUsed)
    (hlt : UnixNano m.lastUsed < maxInt64) : findLRU scan = some m := by
  have hmscan : m ∈ scan := (List.Perm.mem_iff hs).2 ((mem_values_iff c m).2 ⟨m.tag, hm⟩)
  obtain ⟨ev, hf⟩ := findLRU_isSome_of_exists ⟨m, hmscan, hlt⟩
  obtain ⟨hev, _, hle⟩ := findLRU_some_spec hf
  obtain ⟨k, hk⟩ := (mem_values_iff c ev).1 ((List.Perm.mem_iff hs).1 hev)
  by_cases hkm : k = m.tag
  · rw [hkm, hm] at hk
    rw [hf, ← Option.some.inj hk]
  · exact absurd (hle m hmscan) (not_le.2 (hmin k ev hk hkm))

/-- C10 (refuted by the code). On a full cache of size 1 whose only resident is stamped
`math.MaxInt64` (so that no other resident has a smaller timestamp), `findLRU` takes no item:
`updateCache` stops with a nil dereference in `evict`, the resident stays and the new tag is
not admitted. -/
theorem updateCache_last_instant_faults :
    lastInstantOnly.len = lastInstantOnly.size ∧ 1 ≤ lastInstantOnly.size ∧
      lastInstantOnly.ScanOf [itemALast] ∧
      lastInstantOnly.items.lookup "a" = some itemALast ∧
      lastInstantOnly.items.lookup "c" = none ∧
      (lastInstantOnly.updateCache [itemALast] "c" 4).2 = .error .nilDereference ∧
      (lastInstantOnly.updateCache [itemALast] "c" 4).1.items.lookup "a" = some itemALast ∧
      (lastInstantOnly.updateCache [itemALast] "c" 4).1.items.lookup "c" = none :=
  ⟨by decide, by decide, List.Perm.refl _, rfl, rfl, rfl, rfl, rfl⟩

/-- Away from the sentinel the eviction is exact: on a cache with `len(items) = size` in which
one resident item `m`, stored under its tag, has a timestamp (as Unix nanoseconds) strictly
smaller than every other resident's and below `math.MaxInt64`, and for every tag not resident,
`updateCache(tag, data)` returns the new item; afterwards `tag` is mapped to the new item
carrying `data`, `m` is no longer resident, every other resident is unchanged and `len(items)`
is unchanged. -/
theorem updateCache_evicts_lru (c : Cache δ) (scan : List (CacheItem δ)) (tag : String)
    (data : δ) (m : CacheItem δ)
    (hs : c.ScanOf scan) (hlen : c.len = c.size) (_hsize : 1 ≤ c.size)
    (hm : c.items.lookup m.tag = some m)
    (hmin : ∀ k x, c.items.lookup k = some x → k ≠ m.tag →
      UnixNano m.lastUsed < UnixNano x.lastUsed)
    (hlt : UnixNano m.lastUsed < maxInt64)
    (htag : c.items.lookup tag = none) :
    (c.updateCache scan tag data).2 = .ok { data := data, tag := tag, lastUsed := zeroTime } ∧
      (c.updateCache scan tag data).1.items.lookup tag =
        some { data := data, tag := tag, lastUsed := zeroTime } ∧
      (c.updateCache scan tag data).1.items.lookup m.tag = none ∧
      (∀ k, k ≠ tag → k ≠ m.tag →
        (c.updateCache scan tag data).1.items.lookup k = c.items.lookup k) ∧
      (c.updateCache scan tag data).1.len = c.len := by
  have hf := findLRU_unique_min c scan m hs hm hmin hlt
  have hne : m.tag ≠ tag := by
    intro heq
    rw [heq, htag] at hm
    exact Option.noConfusion hm
  rw [updateCache_evict c scan tag data m (le_of_eq hlen.symm) hf]
  refine ⟨rfl, ?_, ?_, ?_, ?_⟩
  · exact AList.lookup_insert _
  · show ((c.items.erase m.tag).insert tag _).lookup m.tag = none
    rw [AList.lookup_insert_ne hne, AList.lookup_erase]
  · intro k hk hkm
    show ((c.items.erase m.tag).insert tag _).lookup k = _
    rw [AList.lookup_insert_ne hk, AList.lookup_erase_ne hkm]
  · show (((c.items.erase m.tag).insert tag _).keys.length : Int) = (c.items.keys.length : Int)
    rw [length_keys_insert_erase_eq c.items m.tag tag _ (mem_of_lookup_eq_some hm)
      (AList.lookup_eq_none.1 htag)]

/-- The case `TestUpdateCache/evicted_case`: admitting `"c"` into the full cache that holds
`"a"` (older) and `"b"` evicts `"a"`. -/
theorem updateCache_evicts_lru_evicted_case :
    fullCache.ScanOf [itemB, itemA] ∧ fullCache.len = fullCache.size ∧
      1 ≤ fullCache.size ∧ fullCache.items.lookup itemA.tag = some itemA ∧
      UnixNano itemA.lastUsed < maxInt64 ∧ fullCache.items.lookup "c" = none ∧
      (fullCache.updateCache [itemB, itemA] "c" 4).1.items.lookup "c" =
        some { data := 4, tag := "c", lastUsed := zeroTime } ∧
      (fullCache.updateCache [itemB, itemA] "c" 4).1.items.lookup "a" = none :=
  have hmin : ∀ k x, fullCache.items.lookup k = some x → k ≠ itemA.tag →
      UnixNano itemA.lastUsed < UnixNano x.lastUsed := by
    intro k x h hk
    have hk' : k ≠ "a" := hk
    by_cases hb : k = "b"
    · subst hb
      have h2 : fullCache.items.lookup "b" = some itemB := rfl
      rw [h2] at h
      rw [← Option.some.inj h]
      decide
    · exfalso
      have h2 : fullCache.items.lookup k = none := by
        show (((∅ : AList (fun _ : String => CacheItem Nat)).insert "a" itemA).insert
          "b" itemB).lookup k = none
        rw [AList.lookup_insert_ne hb, AList.lookup_insert_ne hk', AList.lookup_empty]
      rw [h2] at h
      exact Option.noConfusion h
  ⟨List.Perm.refl _, by decide, by decide, rfl, by decide, rfl,
    (updateCache_evicts_lru fullCache [itemB, itemA] "c" 4 itemA (List.Perm.refl _)
      (by decide) (by decide) rfl hmin (by decide) rfl).2.1,
    (updateCache_evicts_lru fullCache [itemB, itemA] "c" 4 itemA (List.Perm.refl _)
      (by decide) (by decide) rfl hmin (by decide) rfl).2.2.1⟩
/-! ## The least recently used item -/

/-- Where a scan ends: either no item was taken, or the scan splits around the item taken, with
every earlier item strictly later in time and every later item not earlier. -/
theorem foldl_findLRUStep_split (scan : List (CacheItem δ)) :
    ∀ acc : Option (CacheItem δ) × Int,
      (scan.foldl findLRUStep acc = acc ∧ ∀ x ∈ scan, acc.2 ≤ UnixNano x.lastUsed) ∨
      ∃ pre ev post, scan = pre ++ ev :: post ∧
        scan.foldl findLRUStep acc = (some ev, UnixNano ev.lastUsed) ∧
        UnixNano ev.lastUsed < acc.2 ∧
        (∀ x ∈ pre, UnixNano ev.lastUsed < UnixNano x.lastUsed) ∧
        (∀ x ∈ post, UnixNano ev.lastUsed ≤ UnixNano x.lastUsed) := by
  induction scan with
  | nil => intro acc; left; simp
  | cons y ys ih =>
    intro acc
    rw [List.foldl_cons]
    have hstep : (findLRUStep acc y).2 ≤ acc.2 ∧ (findLRUStep acc y).2 ≤ UnixNano y.lastUsed := by
      unfold findLRUStep
      by_cases hlt : UnixNano y.lastUsed < acc.2
      · simp [hlt]; omega
      · simp [hlt]; omega
    rcases ih (findLRUStep acc y) with ⟨hr, hall⟩ | ⟨pre, ev, post, hsplit, hr, hlt, hpre, hpost⟩
    · by_cases hy : UnixNano y.lastUsed < acc.2
      · have hacc : findLRUStep acc y = (some y, UnixNano y.lastUsed) := by
          simp [findLRUStep, hy]
        right
        refine ⟨[], y, ys, rfl, by rw [hr, hacc], hy, by simp, ?_⟩
        intro x hx
        have := hall x hx
        rw [hacc] at this
        exact this
      · have hacc : findLRUStep acc y = acc := by simp [findLRUStep, hy]
        left
        refine ⟨by rw [hr, hacc], ?_⟩
        intro x hx
        rcases List.mem_cons.1 hx with rfl | hx
        · exact not_lt.1 hy
        · have := hall x hx
          rw [hacc] at this
          exact this
    · right
      refine ⟨y :: pre, ev, post, by rw [hsplit]; rfl, hr, lt_of_lt_of_le hlt hstep.1, ?_, hpost⟩
      intro x hx
      rcases List.mem_cons.1 hx with rfl | hx
      · exact lt_of_lt_of_le hlt hstep.2
      · exact hpre x hx

/-- On a non-empty scan with every timestamp below the sentinel, `findLRU` takes an item that
splits the scan as above. -/
theorem findLRU_split (scan : List (CacheItem δ)) (hne : scan ≠ [])
    (hall : ∀ x ∈ scan, UnixNano x.lastUsed < maxInt64) :
    ∃ pre ev post, scan = pre ++ ev :: post ∧ findLRU scan = some ev ∧
      (∀ x ∈ pre, UnixNano ev.lastUsed < UnixNano x.lastUsed) ∧
      (∀ x ∈ post, UnixNano ev.lastUsed ≤ UnixNano x.lastUsed) := by
  rcases foldl_findLRUStep_split scan (none, maxInt64) with
    ⟨_, hge⟩ | ⟨pre, ev, post, hsplit, hr, _, hpre, hpost⟩
  · obtain ⟨x, hx⟩ := List.exists_mem_of_ne_nil scan hne
    exact absurd (hge x hx) (not_le.2 (hall x hx))
  · exact ⟨pre, ev, post, hsplit, by unfold findLRU; rw [hr], hpre, hpost⟩

/-- C11, as stated, fails: `findLRU` compares the `UnixNano` readings, which wrap for instants
outside the `int64` range. With the zero-time item `"x"` (as `updateCache` builds it, reading
-6795364578871345152) and the item `"y"` of 1748 (reading -7000000000000000000) resident, every
reading is below `math.MaxInt64`, and `findLRU` returns `"y"` although `"x"` has the strictly
smaller `lastUsed`. -/
theorem findLRU_takes_later_item_when_reading_wraps :
    zeroTimeCache.ScanOf [itemXZero, itemYOld] ∧ zeroTimeCache.values ≠ [] ∧
      (∀ x ∈ zeroTimeCache.values, UnixNano x.lastUsed < maxInt64) ∧
      zeroTimeCache.items.lookup "x" = some itemXZero ∧
      findLRU [itemXZero, itemYOld] = some itemYOld ∧
      itemXZero.lastUsed < itemYOld.lastUsed ∧
      ¬ itemYOld.lastUsed ≤ itemXZero.lastUsed :=
  ⟨List.Perm.refl _, List.cons_ne_nil itemXZero [itemYOld], by decide, rfl, rfl, by decide,
    by decide⟩

/-- C11, amended. `findLRU` returns a least recently used resident, with timestamps compared as
the code reads them: for every non-empty `items` map whose timestamps (as Unix nanoseconds) are
all below `math.MaxInt64`, and for every order in which the map is scanned, `findLRU` returns an
item that is resident and whose timestamp, as Unix nanoseconds, is at most that of every
resident item; its timestamp is the minimum, so with ties it is one of the tied items, and when
one resident is strictly the earliest the result is that item. When every resident `lastUsed`
is an instant that fits `int64` nanoseconds, the same holds of `lastUsed` itself. -/
theorem findLRU_least_recently_used (c : Cache δ) (scan : List (CacheItem δ))
    (hs : c.ScanOf scan) (hne : c.values ≠ [])
    (hall : ∀ x ∈ c.values, UnixNano x.lastUsed < maxInt64) :
    ∃ ev, findLRU scan = some ev ∧ ev ∈ c.values ∧
      (∃ k, c.items.lookup k = some ev) ∧
      (∀ x ∈ c.values, UnixNano ev.lastUsed ≤ UnixNano x.lastUsed) ∧
      (∀ m ∈ c.values, (∀ x ∈ c.values, UnixNano m.lastUsed ≤ UnixNano x.lastUsed) →
        UnixNano ev.lastUsed = UnixNano m.lastUsed) ∧
      (∀ m ∈ c.values, (∀ x ∈ c.values, x ≠ m → UnixNano m.lastUsed < UnixNano x.lastUsed) →
        ev = m) ∧
      ((∀ x ∈ c.values, InInt64 x.lastUsed) →
        (∀ x ∈ c.values, ev.lastUsed ≤ x.lastUsed) ∧
        (∀ m ∈ c.values, (∀ x ∈ c.values, m.lastUsed ≤ x.lastUsed) →
          ev.lastUsed = m.lastUsed) ∧
        (∀ m ∈ c.values, (∀ x ∈ c.values, x ≠ m → m.lastUsed < x.lastUsed) → ev = m)) := by
  obtain ⟨x0, hx0⟩ := List.exists_mem_of_ne_nil c.values hne
  have hx0s : x0 ∈ scan := (List.Perm.mem_iff hs).2 hx0
  obtain ⟨ev, hf⟩ := findLRU_isSome_of_exists ⟨x0, hx0s, hall x0 hx0⟩
  obtain ⟨hev, _, hle⟩ := findLRU_some_spec hf
  have hevv : ev ∈ c.values := (List.Perm.mem_iff hs).1 hev
  have hmin : ∀ x ∈ c.values, UnixNano ev.lastUsed ≤ UnixNano x.lastUsed :=
    fun x hx => hle x ((List.Perm.mem_iff hs).2 hx)
  refine ⟨ev, hf, hevv, (mem_values_iff c ev).1 hevv, hmin, ?_, ?_, ?_⟩
  · intro m hm hmm
    exact le_antisymm (hmin m hm) (hmm ev hevv)
  · intro m hm hmm
    by_contra hne'
    exact absurd (hmin m hm) (not_le.2 (hmm ev hevv hne'))
  · intro hin
    have hread : ∀ x ∈ c.values, UnixNano x.lastUsed = x.lastUsed :=
      fun x hx => wrapInt64_of_inInt64 (hin x hx)
    have hmin' : ∀ x ∈ c.values, ev.lastUsed ≤ x.lastUsed := by
      intro x hx
      have := hmin x hx
      rw [hread x hx, hread ev hevv] at this
      exact this
    refine ⟨hmin', ?_, ?_⟩
    · intro m hm hmm
      exact le_antisymm (hmin' m hm) (hmm ev hevv)
    · intro m hm hmm
      by_contra hne'
      exact absurd (hmin' m hm) (not_le.2 (hmm ev hevv hne'))

/-- Witness of C11: the cache of `TestFindLRU/two_share_time`, scanned with `"b"` first. -/
theorem findLRU_least_recently_used_witness :
    tiedCache.ScanOf [itemBTied, itemC, itemA] ∧ tiedCache.values ≠ [] ∧
      (∀ x ∈ tiedCache.values, UnixNano x.lastUsed < maxInt64) ∧
      (∀ x ∈ tiedCache.values, InInt64 x.lastUsed) ∧
      ∃ ev, findLRU [itemBTied, itemC, itemA] = some ev ∧ ev ∈ tiedCache.values ∧
        (∀ x ∈ tiedCache.values, UnixNano ev.lastUsed ≤ UnixNano x.lastUsed) ∧
        (∀ x ∈ tiedCache.values, ev.lastUsed ≤ x.lastUsed) := by
  obtain ⟨ev, hf, hev, _, hmin, _, _, hraw⟩ :=
    findLRU_least_recently_used tiedCache [itemBTied, itemC, itemA]
      (List.Perm.swap itemC itemBTied [itemA]) (List.cons_ne_nil itemC [itemBTied, itemA])
      (by decide)
  exact ⟨List.Perm.swap itemC itemBTied [itemA], List.cons_ne_nil itemC [itemBTied, itemA],
    by decide, by decide, ev, hf, hev, hmin, (hraw (by decide)).1⟩

/-- C17, as stated, fails: the scan compares `UnixNano` readings, which wrap for instants
outside the `int64` range. On the list of the item `"y"` of 1748 followed by the zero-time item
`"x"`, both reading below `math.MaxInt64`, `findLRU` returns `"y"`, while the first item whose
`lastUsed` is the minimum `lastUsed` of the list is `"x"`. -/
theorem findLRU_not_first_of_minimum_lastUsed :
    [itemYOld, itemXZero] ≠ [] ∧
      (∀ x ∈ [itemYOld, itemXZero], UnixNano x.lastUsed < maxInt64) ∧
      findLRU [itemYOld, itemXZero] = some itemYOld ∧
      firstOfMinimumLastUsed [itemYOld, itemXZero] = some itemXZero ∧
      itemXZero.lastUsed < itemYOld.lastUsed :=
  ⟨List.cons_ne_nil _ _, by decide, rfl, rfl, by decide⟩

/-- C17, amended. Tie-break follows the scan order, with timestamps compared as the code reads
them: for every non-empty scan list whose timestamps (as Unix nanoseconds) are below
`math.MaxInt64`, `findLRU` returns the first item of the list whose timestamp, as Unix
nanoseconds, equals the minimum of the list; every item before it is strictly later, so a later
item with an equal timestamp never replaces it. When every `lastUsed` of the list is an instant
that fits `int64` nanoseconds, it is the first item whose `lastUsed` is the minimum
`lastUsed`. -/
theorem findLRU_first_of_minimum (scan : List (CacheItem δ)) (hne : scan ≠ [])
    (hall : ∀ x ∈ scan, UnixNano x.lastUsed < maxInt64) :
    ∃ pre ev post, scan = pre ++ ev :: post ∧
      findLRU scan = some ev ∧ firstOfMinimum scan = some ev ∧
      (∀ x ∈ scan, UnixNano ev.lastUsed ≤ UnixNano x.lastUsed) ∧
      (∀ x ∈ pre, UnixNano ev.lastUsed < UnixNano x.lastUsed) ∧
      ((∀ x ∈ scan, InInt64 x.lastUsed) →
        firstOfMinimumLastUsed scan = some ev ∧
        (∀ x ∈ scan, ev.lastUsed ≤ x.lastUsed) ∧
        (∀ x ∈ pre, ev.lastUsed < x.lastUsed)) := by
  obtain ⟨pre, ev, post, hsplit, hf, hpre, hpost⟩ := findLRU_split scan hne hall
  have hmin : ∀ x ∈ scan, UnixNano ev.lastUsed ≤ UnixNano x.lastUsed := by
    intro x hx
    rw [hsplit] at hx
    rcases List.mem_append.1 hx with hx | hx
    · exact le_of_lt (hpre x hx)
    · rcases List.mem_cons.1 hx with rfl | hx
      · exact le_refl _
      · exact hpost x hx
  have hevmem : ev ∈ scan := by rw [hsplit]; simp
  have hpremem : ∀ x ∈ pre, x ∈ scan := by
    intro x hx; rw [hsplit]; exact List.mem_append_left _ hx
  refine ⟨pre, ev, post, hsplit, hf, ?_, hmin, hpre, ?_⟩
  · unfold firstOfMinimum
    rw [List.find?_eq_some]
    refine ⟨by simpa using hmin, pre, post, hsplit, ?_⟩
    intro a ha
    have hlt := hpre a ha
    simp only [Bool.not_eq_true', decide_eq_false_iff_not, not_forall]
    exact ⟨ev, hevmem, not_le.2 hlt⟩
  · intro hin
    have hread : ∀ x ∈ scan, UnixNano x.lastUsed = x.lastUsed :=
      fun x hx => wrapInt64_of_inInt64 (hin x hx)
    have hmin' : ∀ x ∈ scan, ev.lastUsed ≤ x.lastUsed := by
      intro x hx
      have := hmin x hx
      rw [hread x hx, hread ev hevmem] at this
      exact this
    have hpre' : ∀ x ∈ pre, ev.lastUsed < x.lastUsed := by
      intro x hx
      have := hpre x hx
      rw [hread x (hpremem x hx), hread ev hevmem] at this
      exact this
    refine ⟨?_, hmin', hpre'⟩
    unfold firstOfMinimumLastUsed
    rw [List.find?_eq_some]
    refine ⟨by simpa using hmin', pre, post, hsplit, ?_⟩
    intro a ha
    simp only [Bool.not_eq_true', decide_eq_false_iff_not, not_forall]
    exact ⟨ev, hevmem, not_le.2 (hpre' a ha)⟩

/-- Witness of C17: with `"a"` and `"b"` tied for the minimum, the one scanned first wins. -/
theorem findLRU_first_of_minimum_witness :
    [itemC, itemBTied, itemA] ≠ [] ∧
      (∀ x ∈ [itemC, itemBTied, itemA], UnixNano x.lastUsed < maxInt64) ∧
      (∀ x ∈ [itemC, itemBTied, itemA], InInt64 x.lastUsed) ∧
      findLRU [itemC, itemBTied, itemA] = some itemBTied ∧
      ∃ pre ev post, [itemC, itemBTied, itemA] = pre ++ ev :: post ∧
        findLRU [itemC, itemBTied, itemA] = some ev ∧
        firstOfMinimum [itemC, itemBTied, itemA] = some ev ∧
        firstOfMinimumLastUsed [itemC, itemBTied, itemA] = some ev := by
  obtain ⟨pre, ev, post, hsplit, hf, hfirst, _, _, hraw⟩ :=
    findLRU_first_of_minimum [itemC, itemBTied, itemA] (List.cons_ne_nil _ _) (by decide)
  exact ⟨List.cons_ne_nil _ _, by decide, by decide, rfl, pre, ev, post, hsplit, hf, hfirst,
    (hraw (by decide)).1⟩
/-! ## Backing store and tiers -/

/-- C12. Eviction never touches the backing store: `evict` and `updateCache` (with or without
an eviction, completed or stopped) leave the backing store map exactly as it was, so every tag,
the evicted one included, is found by `backingStore.getItem` with the same value as before. -/
theorem eviction_keeps_backingStore (c : Cache δ) (scan : List (CacheItem δ)) (tag : String)
    (data : δ) (newResident : CacheItem δ) (evictedResident : Option (CacheItem δ)) :
    (c.updateCache scan tag data).1.backingStore = c.backingStore ∧
      (c.evict newResident evictedResident).1.backingStore = c.backingStore ∧
      (∀ k, (c.updateCache scan tag data).1.backingStore.getItem k = c.backingStore.getItem k) ∧
      (∀ k, (c.evict newResident evictedResident).1.backingStore.getItem k =
        c.backingStore.getItem k) := by
  have hu : (c.updateCache scan tag data).1.backingStore = c.backingStore := by
    by_cases hlen : c.len < c.size
    · rw [updateCache_below c scan tag data hlen]
    · cases hf : findLRU scan with
      | none => rw [updateCache_fault c scan tag data (not_lt.1 hlen) hf]
      | some ev => rw [updateCache_evict c scan tag data ev (not_lt.1 hlen) hf]
  have he : (c.evict newResident evictedResident).1.backingStore = c.backingStore := by
    cases evictedResident <;> rfl
  exact ⟨hu, he, fun k => by rw [hu], fun k => by rw [he]⟩

/-- C13. Fast tier is a subset of the durable tier: on a cache just built by either constructor
every key of `items` is a key of the backing store, and every `AddItem` and `GetItem` call,
completed or stopped, keeps it so. -/
theorem fast_tier_in_durable_tier (size : Int) (clock realClock : Clock) :
    (NewLRUCache size realClock : Cache δ).FastInDurable ∧
      (NewLRUCacheWithClock size clock realClock : Cache δ).FastInDurable ∧
      ∀ (c : Cache δ) (scan : List (CacheItem δ)) (tag : String) (data : δ),
        c.FastInDurable →
          (c.AddItem scan tag data).1.FastInDurable ∧ (c.GetItem scan tag).1.FastInDurable := by
  refine ⟨fun k hk => absurd hk (AList.not_mem_empty k),
    fun k hk => absurd hk (AList.not_mem_empty k), ?_⟩
  intro c scan tag data hsub
  constructor
  · cases h : c.items.lookup tag with
    | none =>
      rw [AddItem_miss c scan tag data h]
      intro k hk
      have hk' : k ∈ c.backingStore.store := hsub k hk
      show k ∈ (match c.backingStore.getItem tag with
        | some _ => c.backingStore
        | none => c.backingStore.addItem tag data).store
      cases c.backingStore.getItem tag with
      | some _ => exact hk'
      | none => exact (AList.mem_insert _).2 (Or.inr hk')
    | some item =>
      rw [AddItem_hit c scan tag data item h]
      intro k hk
      have hk1 : k ∈ c.items := AList.mem_replace.1 hk
      exact (AList.mem_insert _).2 (Or.inr (hsub k hk1))
  · cases h : c.items.lookup tag with
    | some item =>
      rw [GetItem_hit c scan tag item h]
      intro k hk
      exact hsub k (AList.mem_replace.1 hk)
    | none =>
      cases hst : c.backingStore.getItem tag with
      | none => rw [GetItem_absent c scan tag h hst]; exact hsub
      | some v =>
        by_cases hlen : c.len < c.size
        · rw [GetItem_below c scan tag v h hst hlen]; exact hsub
        · cases hf : findLRU scan with
          | none => rw [GetItem_fault c scan tag v h hst (not_lt.1 hlen) hf]; exact hsub
          | some ev =>
            rw [GetItem_evict c scan tag v ev h hst (not_lt.1 hlen) hf]
            intro k hk
            have hk1 := AList.mem_replace.1 hk
            rcases (AList.mem_insert _).1 hk1 with rfl | hk2
            · exact mem_of_lookup_eq_some hst
            · exact hsub k (AList.mem_erase.1 hk2).2

/-- Witness of C13: a read of `"c"`, held by the backing store, that evicts from the full cache
holding `"a"` and `"b"`, once the backing store holds all three tags. -/
theorem fast_tier_in_durable_tier_witness :
    ({ fullCache with
        backingStore := ((fullCache.backingStore.addItem "a" 1).addItem "b" 2) } :
      Cache Nat).FastInDurable ∧
    (({ fullCache with
        backingStore := ((fullCache.backingStore.addItem "a" 1).addItem "b" 2) } :
      Cache Nat).GetItem [itemB, itemA] "c").1.FastInDurable :=
  have h0 : ({ fullCache with
      backingStore := ((fullCache.backingStore.addItem "a" 1).addItem "b" 2) } :
      Cache Nat).FastInDurable := by
    intro k hk
    have hk' : k ∈ ((∅ : AList (fun _ : String => CacheItem Nat)).insert "a" itemA).insert
        "b" itemB := hk
    show k ∈ (((∅ : AList (fun _ : String => Nat)).insert "c" 3).insert "a" 1).insert "b" 2
    rcases (AList.mem_insert _).1 hk' with rfl | hk'
    · exact (AList.mem_insert _).2 (Or.inl rfl)
    · rcases (AList.mem_insert _).1 hk' with rfl | hk'
      · exact (AList.mem_insert _).2 (Or.inr ((AList.mem_insert _).2 (Or.inl rfl)))
      · exact absurd hk' (AList.not_mem_empty k)
  ⟨h0, ((fast_tier_in_durable_tier 2 { Now := 100 } { Now := 100 }).2.2 _ [itemB, itemA] "c" 0
    h0).2⟩

/-! ## Write hit and failed read -/

/-- C15, as stated, fails: the counters are Go `int`s, and a write hit on a cache whose `uses`
and `hits` stand at `math.MaxInt64` wraps both to `math.MinInt64` instead of adding one. -/
theorem AddItem_hit_wraps_counters :
    saturatedHits.items.lookup "a" = some itemA ∧
      saturatedHits.uses = maxInt64 ∧ saturatedHits.hits = maxInt64 ∧
      (saturatedHits.AddItem [itemB, itemA] "a" 7).2 = .ok () ∧
      (saturatedHits.AddItem [itemB, itemA] "a" 7).1.uses = minInt64 ∧
      (saturatedHits.AddItem [itemB, itemA] "a" 7).1.hits = minInt64 ∧
      (saturatedHits.AddItem [itemB, itemA] "a" 7).1.uses ≠ saturatedHits.uses + 1 ∧
      (saturatedHits.AddItem [itemB, itemA] "a" 7).1.hits ≠ saturatedHits.hits + 1 :=
  ⟨rfl, by decide, by decide, rfl, by decide, by decide, by decide, by decide⟩

/-- C15, amended. Write hit: when `tag` is resident, `AddItem(tag, data)` completes; `uses` and
`hits` are incremented in Go `int` arithmetic, that is, they grow by exactly one unless the
counter stands at `math.MaxInt64`, and `misses` is unchanged; the resident item keeps its tag
and gets `data` and the clock reading as `lastUsed`; the backing store maps `tag` to `data`; no
resident tag is added or removed, every other resident item and every other backing store
entry is unchanged. -/
theorem AddItem_hit_spec (c : Cache δ) (scan : List (CacheItem δ)) (tag : String) (data : δ)
    (item : CacheItem δ) (h : c.items.lookup tag = some item) :
    (c.AddItem scan tag data).2 = .ok () ∧
      (c.AddItem scan tag data).1.uses = wrapInt64 (c.uses + 1) ∧
      (c.AddItem scan tag data).1.hits = wrapInt64 (c.hits + 1) ∧
      (InInt64 (c.uses + 1) → (c.AddItem scan tag data).1.uses = c.uses + 1) ∧
      (InInt64 (c.hits + 1) → (c.AddItem scan tag data).1.hits = c.hits + 1) ∧
      (c.AddItem scan tag data).1.misses = c.misses ∧
      (c.AddItem scan tag data).1.items.lookup tag =
        some { data := data, tag := item.tag, lastUsed := c.clock.Now } ∧
      (c.AddItem scan tag data).1.backingStore.getItem tag = some data ∧
      (c.AddItem scan tag data).1.items.keys = c.items.keys ∧
      (∀ k, k ≠ tag → (c.AddItem scan tag data).1.items.lookup k = c.items.lookup k) ∧
      (∀ k, k ≠ tag →
        (c.AddItem scan tag data).1.backingStore.getItem k = c.backingStore.getItem k) := by
  rw [AddItem_hit c scan tag data item h]
  refine ⟨rfl, rfl, rfl, fun hu => wrapInt64_of_inInt64 hu, fun hh => wrapInt64_of_inInt64 hh,
    rfl, ?_, ?_, ?_, ?_, ?_⟩
  · show (c.items.replace tag _).lookup tag = _
    rw [lookup_replace_self, h]; rfl
  · exact AList.lookup_insert _
  · exact AList.keys_replace _ _ _
  · intro k hk
    exact lookup_replace_ne c.items hk
  · intro k hk
    exact AList.lookup_insert_ne hk

/-- Witness of C15: writing 7 under `"a"` in the full cache holding `"a"` and `"b"`. -/
theorem AddItem_hit_spec_witness :
    fullCache.items.lookup "a" = some itemA ∧ InInt64 (fullCache.uses + 1) ∧
      InInt64 (fullCache.hits + 1) ∧
      (fullCache.AddItem [itemB, itemA] "a" 7).1.uses = fullCache.uses + 1 ∧
      (fullCache.AddItem [itemB, itemA] "a" 7).1.hits = fullCache.hits + 1 ∧
      (fullCache.AddItem [itemB, itemA] "a" 7).1.items.lookup "a" =
        some { data := 7, tag := "a", lastUsed := 100 } ∧
      (fullCache.AddItem [itemB, itemA] "a" 7).1.backingStore.getItem "a" = some 7 :=
  ⟨rfl, by decide, by decide,
    (AddItem_hit_spec fullCache [itemB, itemA] "a" 7 itemA rfl).2.2.2.1 (by decide),
    (AddItem_hit_spec fullCache [itemB, itemA] "a" 7 itemA rfl).2.2.2.2.1 (by decide),
    (AddItem_hit_spec fullCache [itemB, itemA] "a" 7 itemA rfl).2.2.2.2.2.2.1,
    (AddItem_hit_spec fullCache [itemB, itemA] "a" 7 itemA rfl).2.2.2.2.2.2.2.1⟩

/-- C16, as stated, fails: the counters are Go `int`s, and a failed read on a cache whose
`uses` and `misses` stand at `math.MaxInt64` wraps both to `math.MinInt64` instead of adding
one. -/
theorem GetItem_absent_wraps_counters :
    saturatedMisses.items.lookup "a" = none ∧
      saturatedMisses.backingStore.getItem "a" = none ∧
      saturatedMisses.uses = maxInt64 ∧ saturatedMisses.misses = maxInt64 ∧
      (saturatedMisses.GetItem [] "a").2 = .ok (none, some .ErrDataNotInBackingStore) ∧
      (saturatedMisses.GetItem [] "a").1.uses = minInt64 ∧
      (saturatedMisses.GetItem [] "a").1.misses = minInt64 ∧
      (saturatedMisses.GetItem [] "a").1.uses ≠ saturatedMisses.uses + 1 ∧
      (saturatedMisses.GetItem [] "a").1.misses ≠ saturatedMisses.misses + 1 :=
  ⟨rfl, by decide, by decide, by decide, rfl, by decide, by decide, by decide, by decide⟩

/-- C16, amended. A failed read changes only the counters: when `tag` is absent from both
`items` and the backing store, `GetItem(tag)` returns the error, leaves `items` and the backing
store exactly as they were, increments `uses` and `misses` in Go `int` arithmetic, that is, by
exactly one unless the counter stands at `math.MaxInt64`, and leaves `hits` unchanged. -/
theorem GetItem_absent_spec (c : Cache δ) (scan : List (CacheItem δ)) (tag : String)
    (h : c.items.lookup tag = none) (hst : c.backingStore.getItem tag = none) :
    (c.GetItem scan tag).2 = .ok (none, some .ErrDataNotInBackingStore) ∧
      (c.GetItem scan tag).1.items = c.items ∧
      (c.GetItem scan tag).1.backingStore = c.backingStore ∧
      (c.GetItem scan tag).1.uses = wrapInt64 (c.uses + 1) ∧
      (c.GetItem scan tag).1.misses = wrapInt64 (c.misses + 1) ∧
      (InInt64 (c.uses + 1) → (c.GetItem scan tag).1.uses = c.uses + 1) ∧
      (InInt64 (c.misses + 1) → (c.GetItem scan tag).1.misses = c.misses + 1) ∧
      (c.GetItem scan tag).1.hits = c.hits := by
  rw [GetItem_absent c scan tag h hst]
  exact ⟨rfl, rfl, rfl, rfl, rfl, fun hu => wrapInt64_of_inInt64 hu,
    fun hm => wrapInt64_of_inInt64 hm, rfl⟩

/-- Witness of C16: the case "miss item and not backing store" of `TestCache_GetItem`. -/
theorem GetItem_absent_spec_witness :
    freshCache.items.lookup "a" = none ∧ freshCache.backingStore.getItem "a" = none ∧
      InInt64 (freshCache.uses + 1) ∧ InInt64 (freshCache.misses + 1) ∧
      (freshCache.GetItem [] "a").2 = .ok (none, some .ErrDataNotInBackingStore) ∧
      (freshCache.GetItem [] "a").1.uses = freshCache.uses + 1 ∧
      (freshCache.GetItem [] "a").1.misses = freshCache.misses + 1 :=
  ⟨rfl, by decide, by decide, by decide,
    (GetItem_absent_spec freshCache [] "a" rfl (by decide)).1,
    (GetItem_absent_spec freshCache [] "a" rfl (by decide)).2.2.2.2.2.1 (by decide),
    (GetItem_absent_spec freshCache [] "a" rfl (by decide)).2.2.2.2.2.2.1 (by decide)⟩
/-! ## Counters -/

/-- How one `AddItem` moves the counters, on every path. -/
theorem AddItem_counters (c : Cache δ) (scan : List (CacheItem δ)) (tag : String) (data : δ) :
    (c.AddItem scan tag data).1.uses = wrapInt64 (c.uses + 1) ∧
      (((c.AddItem scan tag data).1.hits = wrapInt64 (c.hits + 1) ∧
          (c.AddItem scan tag data).1.misses = c.misses) ∨
        ((c.AddItem scan tag data).1.hits = c.hits ∧
          (c.AddItem scan tag data).1.misses = wrapInt64 (c.misses + 1))) := by
  cases h : c.items.lookup tag with
  | none => rw [AddItem_miss c scan tag data h]; exact ⟨rfl, Or.inr ⟨rfl, rfl⟩⟩
  | some item => rw [AddItem_hit c scan tag data item h]; exact ⟨rfl, Or.inl ⟨rfl, rfl⟩⟩

/-- How one `GetItem` moves the counters, on every path. -/
theorem GetItem_counters (c : Cache δ) (scan : List (CacheItem δ)) (tag : String) :
    (c.GetItem scan tag).1.uses = wrapInt64 (c.uses + 1) ∧
      (((c.GetItem scan tag).1.hits = wrapInt64 (c.hits + 1) ∧
          (c.GetItem scan tag).1.misses = c.misses) ∨
        ((c.GetItem scan tag).1.hits = c.hits ∧
          (c.GetItem scan tag).1.misses = wrapInt64 (c.misses + 1))) := by
  cases h : c.items.lookup tag with
  | some item => rw [GetItem_hit c scan tag item h]; exact ⟨rfl, Or.inl ⟨rfl, rfl⟩⟩
  | none =>
    cases hst : c.backingStore.getItem tag with
    | none => rw [GetItem_absent c scan tag h hst]; exact ⟨rfl, Or.inr ⟨rfl, rfl⟩⟩
    | some v =>
      by_cases hlen : c.len < c.size
      · rw [GetItem_below c scan tag v h hst hlen]; exact ⟨rfl, Or.inr ⟨rfl, rfl⟩⟩
      · cases hf : findLRU scan with
        | none =>
          rw [GetItem_fault c scan tag v h hst (not_lt.1 hlen) hf]
          exact ⟨rfl, Or.inr ⟨rfl, rfl⟩⟩
        | some ev =>
          rw [GetItem_evict c scan tag v ev h hst (not_lt.1 hlen) hf]
          exact ⟨rfl, Or.inr ⟨rfl, rfl⟩⟩

/-- Counters moved as by one call keep the accounting, as Go evaluates it and, when no
increment wraps, as integers. -/
theorem counters_step (u h m u1 h1 m1 : Int) (hu : u1 = wrapInt64 (u + 1))
    (hhm : (h1 = wrapInt64 (h + 1) ∧ m1 = m) ∨ (h1 = h ∧ m1 = wrapInt64 (m + 1))) :
    (u = wrapInt64 (h + m) → u1 = wrapInt64 (h1 + m1)) ∧
    (InInt64 (u + 1) ∧ InInt64 (h + 1) ∧ InInt64 (m + 1) →
      u1 = u + 1 ∧ ((h1 = h + 1 ∧ m1 = m) ∨ (h1 = h ∧ m1 = m + 1)) ∧
      (u = h + m → u1 = h1 + m1)) := by
  constructor
  · intro hagree
    rcases hhm with ⟨hh, hm⟩ | ⟨hh, hm⟩
    · rw [hu, hh, hm, hagree, wrapInt64_wrap_add, wrapInt64_wrap_add]
      congr 1; omega
    · rw [hu, hh, hm, hagree, wrapInt64_wrap_add, wrapInt64_add_wrap]
      congr 1; omega
  · rintro ⟨bu, bh, bm⟩
    have eu : u1 = u + 1 := by rw [hu]; exact wrapInt64_of_inInt64 bu
    rcases hhm with ⟨hh, hm⟩ | ⟨hh, hm⟩
    · have eh : h1 = h + 1 := by rw [hh]; exact wrapInt64_of_inInt64 bh
      exact ⟨eu, Or.inl ⟨eh, hm⟩, fun hag => by rw [eu, eh, hm, hag]; omega⟩
    · have em : m1 = m + 1 := by rw [hm]; exact wrapInt64_of_inInt64 bm
      exact ⟨eu, Or.inr ⟨hh, em⟩, fun hag => by rw [eu, hh, em, hag]; omega⟩

/-- C18, as stated, fails: the counters are Go `int`s. On a cache with `uses` at
`math.MaxInt64`, made of 2^62 hits and 2^62 - 1 misses, a hit wraps `uses` to `math.MinInt64`
instead of adding one, and `uses = hits + misses` no longer holds of the integers. -/
theorem counters_disagree_after_wrap :
    saturatedUses.CountersAgree ∧ saturatedUses.items.lookup "a" = some itemA ∧
      (saturatedUses.GetItem [itemB, itemA] "a").1.uses = minInt64 ∧
      (saturatedUses.GetItem [itemB, itemA] "a").1.hits = 4611686018427387905 ∧
      (saturatedUses.GetItem [itemB, itemA] "a").1.misses = 4611686018427387903 ∧
      (saturatedUses.GetItem [itemB, itemA] "a").1.uses ≠ saturatedUses.uses + 1 ∧
      ¬ (saturatedUses.GetItem [itemB, itemA] "a").1.CountersAgree := by
  refine ⟨?_, rfl, by decide, by decide, by decide, by decide, ?_⟩ <;>
    unfold Cache.CountersAgree <;> decide

/-- C18, amended. Counter accounting invariant: `uses = hits + misses` holds on a cache just
built by either constructor and after `resetCounters`; each `AddItem` or `GetItem` call
(returning an item, returning the error, or stopped) increments `uses` and exactly one of `hits`
and `misses` in Go `int` arithmetic, leaving the other as it was, so the Go expression
`uses == hits + misses` stays true; as long as no counter stands at `math.MaxInt64` each of
these increments adds exactly one and `uses = hits + misses` is kept as an equation of
integers. -/
theorem counters_agree (size : Int) (clock realClock : Clock) :
    (NewLRUCache size realClock : Cache δ).CountersAgree ∧
      (NewLRUCacheWithClock size clock realClock : Cache δ).CountersAgree ∧
      ∀ (c : Cache δ) (scan : List (CacheItem δ)) (tag : String) (data : δ),
        c.resetCounters.CountersAgree ∧
        ((c.AddItem scan tag data).1.uses = wrapInt64 (c.uses + 1) ∧
          (((c.AddItem scan tag data).1.hits = wrapInt64 (c.hits + 1) ∧
              (c.AddItem scan tag data).1.misses = c.misses) ∨
            ((c.AddItem scan tag data).1.hits = c.hits ∧
              (c.AddItem scan tag data).1.misses = wrapInt64 (c.misses + 1)))) ∧
        ((c.GetItem scan tag).1.uses = wrapInt64 (c.uses + 1) ∧
          (((c.GetItem scan tag).1.hits = wrapInt64 (c.hits + 1) ∧
              (c.GetItem scan tag).1.misses = c.misses) ∨
            ((c.GetItem scan tag).1.hits = c.hits ∧
              (c.GetItem scan tag).1.misses = wrapInt64 (c.misses + 1)))) ∧
        (c.CountersAgreeInt64 →
          (c.AddItem scan tag data).1.CountersAgreeInt64 ∧
          (c.GetItem scan tag).1.CountersAgreeInt64) ∧
        (c.CountersBelowMax →
          ((c.AddItem scan tag data).1.uses = c.uses + 1 ∧
            (((c.AddItem scan tag data).1.hits = c.hits + 1 ∧
                (c.AddItem scan tag data).1.misses = c.misses) ∨
              ((c.AddItem scan tag data).1.hits = c.hits ∧
                (c.AddItem scan tag data).1.misses = c.misses + 1))) ∧
          ((c.GetItem scan tag).1.uses = c.uses + 1 ∧
            (((c.GetItem scan tag).1.hits = c.hits + 1 ∧
                (c.GetItem scan tag).1.misses = c.misses) ∨
              ((c.GetItem scan tag).1.hits = c.hits ∧
                (c.GetItem scan tag).1.misses = c.misses + 1))) ∧
          (c.CountersAgree →
            (c.AddItem scan tag data).1.CountersAgree ∧
            (c.GetItem scan tag).1.CountersAgree)) := by
  refine ⟨rfl, rfl, ?_⟩
  intro c scan tag data
  have ha := AddItem_counters c scan tag data
  have hg := GetItem_counters c scan tag
  have sa := counters_step c.uses c.hits c.misses _ _ _ ha.1 ha.2
  have sg := counters_step c.uses c.hits c.misses _ _ _ hg.1 hg.2
  refine ⟨rfl, ha, hg, fun hag => ⟨sa.1 hag, sg.1 hag⟩, ?_⟩
  intro hb
  obtain ⟨a1, a2, a3⟩ := sa.2 hb
  obtain ⟨g1, g2, g3⟩ := sg.2 hb
  exact ⟨⟨a1, a2⟩, ⟨g1, g2⟩, fun hag => ⟨a3 hag, g3 hag⟩⟩

/-- Witness of C18: a read that stops with a fault still counts as one use and one miss. -/
theorem counters_agree_witness :
    zeroSizeCache.CountersBelowMax ∧ zeroSizeCache.CountersAgree ∧
      (zeroSizeCache.GetItem [] "a").2 = .error .nilDereference ∧
      (zeroSizeCache.GetItem [] "a").1.uses = zeroSizeCache.uses + 1 ∧
      (zeroSizeCache.GetItem [] "a").1.CountersAgree :=
  ⟨by decide, rfl, rfl,
    ((((counters_agree 0 { Now := 100 } { Now := 100 }).2.2 zeroSizeCache [] "a" 0).2.2.2.2
      (by decide)).2.1).1,
    ((((counters_agree 0 { Now := 100 } { Now := 100 }).2.2 zeroSizeCache [] "a" 0).2.2.2.2
      (by decide)).2.2 rfl).2⟩

/-- C14 (refuted by the code). On the cache built by `NewLRUCache(5)`, `AddItem("a", 0)` stops
with a nil dereference after counting a miss and admits nothing; the `GetItem("a")` that
follows is a second miss, served by the backing store: `uses = 2`, `misses = 2`, `hits = 0`. -/
theorem counter_scenario_fails :
    (freshCache.AddItem [] "a" 0).2 = .error .nilDereference ∧
      (freshCache.AddItem [] "a" 0).1.items.lookup "a" = none ∧
      ((freshCache.AddItem [] "a" 0).1.GetItem [] "a").2 =
        .ok (some { data := 0, tag := "a", lastUsed := 100 }, none) ∧
      ((freshCache.AddItem [] "a" 0).1.GetItem [] "a").1.uses = 2 ∧
      ((freshCache.AddItem [] "a" 0).1.GetItem [] "a").1.misses = 2 ∧
      ((freshCache.AddItem [] "a" 0).1.GetItem [] "a").1.hits = 0 :=
  ⟨rfl, rfl, rfl, by decide, by decide, by decide⟩

/-! ## A cache that starts empty stays empty -/

/-- Counters after one call on an empty cache of positive size: the call is a miss. -/
theorem step_of_empty_counters (c : Cache δ) (call : Call δ) (hsize : 1 ≤ c.size)
    (hempty : c.items = ∅) :
    (c.step call).uses = wrapInt64 (c.uses + 1) ∧ (c.step call).hits = c.hits ∧
      (c.step call).misses = wrapInt64 (c.misses + 1) := by
  have hlook : ∀ (clk : Clock) (t : String),
      ({ c with clock := clk } : Cache δ).items.lookup t = none := by
    intro clk t
    show c.items.lookup t = none
    rw [hempty]; exact AList.lookup_empty t
  have hlen : ∀ clk : Clock, ({ c with clock := clk } : Cache δ).len
      < ({ c with clock := clk } : Cache δ).size := by
    intro clk
    show ((c.items.keys.length : Int)) < c.size
    rw [hempty, AList.keys_empty]
    simp only [List.length_nil, Nat.cast_zero]
    omega
  unfold Cache.step
  cases hop : call.op with
  | AddItem tag data =>
    simp only
    rw [AddItem_miss _ call.scan tag data (hlook _ tag)]
    exact ⟨rfl, rfl, rfl⟩
  | GetItem tag =>
    simp only
    cases hst : ({ c with clock := { Now := call.now } } : Cache δ).backingStore.getItem tag with
    | none =>
      rw [GetItem_absent _ call.scan tag (hlook _ tag) hst]
      exact ⟨rfl, rfl, rfl⟩
    | some v =>
      rw [GetItem_below _ call.scan tag v (hlook _ tag) hst (hlen _)]
      exact ⟨rfl, rfl, rfl⟩

theorem run_of_empty_counters (calls : List (Call δ)) :
    ∀ c : Cache δ, 1 ≤ c.size → c.items = ∅ → InInt64 c.uses → InInt64 c.misses →
      (c.run calls).uses = wrapInt64 (c.uses + calls.length) ∧ (c.run calls).hits = c.hits ∧
        (c.run calls).misses = wrapInt64 (c.misses + calls.length) := by
  induction calls with
  | nil =>
    intro c _ _ hu hm
    refine ⟨?_, rfl, ?_⟩
    · show c.uses = wrapInt64 (c.uses + ((0 : Nat) : Int))
      rw [Nat.cast_zero, add_zero, wrapInt64_of_inInt64 hu]
    · show c.misses = wrapInt64 (c.misses + ((0 : Nat) : Int))
      rw [Nat.cast_zero, add_zero, wrapInt64_of_inInt64 hm]
  | cons call rest ih =>
    intro c hsize hempty _ _
    obtain ⟨h1, h2⟩ := step_of_empty c call hsize hempty
    obtain ⟨hu, hh, hm⟩ := step_of_empty_counters c call hsize hempty
    obtain ⟨iu, ih', im⟩ := ih (c.step call) (by rw [h2]; exact hsize) h1
      (by rw [hu]; exact wrapInt64_inInt64 _) (by rw [hm]; exact wrapInt64_inInt64 _)
    show ((c.step call).run rest).uses = _ ∧ ((c.step call).run rest).hits = _ ∧
      ((c.step call).run rest).misses = _
    rw [iu, ih', im, hu, hh, hm, wrapInt64_wrap_add, wrapInt64_wrap_add]
    refine ⟨?_, rfl, ?_⟩ <;> congr 1 <;>
      simp only [List.length_cons, Nat.cast_add, Nat.cast_one] <;> omega

/-- C19. Nothing is ever cached in a fresh cache: for every cache built by `NewLRUCache` or
`NewLRUCacheWithClock` with `size >= 1` and every finite sequence of `AddItem` and `GetItem`
calls (a call stopped by a fault leaves the cache as it was at the fault), after every call the
`items` map is empty, `hits` is 0, and every call made has been counted as a use and as a
miss: `uses` and `misses` hold the number of calls made, as a Go `int` (the number itself for
any sequence of at most `math.MaxInt64` calls). -/
theorem fresh_cache_stays_empty (size : Int) (hsize : 1 ≤ size) (clock realClock : Clock)
    (calls : List (Call δ)) (n : Nat) :
    ((NewLRUCache size realClock : Cache δ).run (calls.take n)).items = ∅ ∧
      ((NewLRUCache size realClock : Cache δ).run (calls.take n)).hits = 0 ∧
      ((NewLRUCache size realClock : Cache δ).run (calls.take n)).misses =
        wrapInt64 (calls.take n).length ∧
      ((NewLRUCache size realClock : Cache δ).run (calls.take n)).uses =
        wrapInt64 (calls.take n).length ∧
      ((NewLRUCacheWithClock size clock realClock : Cache δ).run (calls.take n)).items = ∅ ∧
      ((NewLRUCacheWithClock size clock realClock : Cache δ).run (calls.take n)).hits = 0 ∧
      ((NewLRUCacheWithClock size clock realClock : Cache δ).run (calls.take n)).misses =
        wrapInt64 (calls.take n).length ∧
      ((NewLRUCacheWithClock size clock realClock : Cache δ).run (calls.take n)).uses =
        wrapInt64 (calls.take n).length ∧
      (((calls.take n).length : Int) ≤ maxInt64 →
        ((NewLRUCache size realClock : Cache δ).run (calls.take n)).misses =
          (calls.take n).length ∧
        ((NewLRUCache size realClock : Cache δ).run (calls.take n)).uses =
          (calls.take n).length ∧
        ((NewLRUCacheWithClock size clock realClock : Cache δ).run (calls.take n)).misses =
          (calls.take n).length ∧
        ((NewLRUCacheWithClock size clock realClock : Cache δ).run (calls.take n)).uses =
          (calls.take n).length) := by
  have hzero : InInt64 0 := by decide
  have key : ∀ c : Cache δ, c.size = size → c.items = ∅ → c.uses = 0 → c.hits = 0 →
      c.misses = 0 →
      (c.run (calls.take n)).items = ∅ ∧ (c.run (calls.take n)).hits = 0 ∧
        (c.run (calls.take n)).misses = wrapInt64 (calls.take n).length ∧
        (c.run (calls.take n)).uses = wrapInt64 (calls.take n).length := by
    intro c hc hempty hu hh hm
    have hs : 1 ≤ c.size := by rw [hc]; exact hsize
    obtain ⟨h1, _⟩ := run_of_empty (calls.take n) c hs hempty
    obtain ⟨h2, h3, h4⟩ := run_of_empty_counters (calls.take n) c hs hempty
      (by rw [hu]; exact hzero) (by rw [hm]; exact hzero)
    refine ⟨h1, by rw [h3, hh], ?_, ?_⟩
    · rw [h4, hm, zero_add]
    · rw [h2, hu, zero_add]
  obtain ⟨a1, a2, a3, a4⟩ := key (NewLRUCache size realClock) rfl rfl rfl rfl rfl
  obtain ⟨b1, b2, b3, b4⟩ := key (NewLRUCacheWithClock size clock realClock) rfl rfl rfl rfl rfl
  refine ⟨a1, a2, a3, a4, b1, b2, b3, b4, ?_⟩
  intro hle
  have hin : InInt64 ((calls.take n).length : Int) := by
    refine ⟨?_, hle⟩
    have : (0 : Int) ≤ ((calls.take n).length : Int) := Int.ofNat_nonneg _
    unfold minInt64
    omega
  have hw := wrapInt64_of_inInt64 hin
  exact ⟨by rw [a3, hw], by rw [a4, hw], by rw [b3, hw], by rw [b4, hw]⟩

/-- Witness of C19: a write, a read and a write of the same tag on a cache of size 5. -/
theorem fresh_cache_stays_empty_witness :
    (1 : Int) ≤ 5 ∧ ((sampleCalls.take 3).length : Int) ≤ maxInt64 ∧
      (freshCache.run (sampleCalls.take 3)).items = ∅ ∧
      (freshCache.run (sampleCalls.take 3)).hits = 0 ∧
      (freshCache.run (sampleCalls.take 3)).misses = (sampleCalls.take 3).length ∧
      (freshCache.run (sampleCalls.take 3)).misses = 3 :=
  ⟨by decide, by decide,
    (fresh_cache_stays_empty 5 (by decide) { Now := 100 } { Now := 100 } sampleCalls 3).1,
    (fresh_cache_stays_empty 5 (by decide) { Now := 100 } { Now := 100 } sampleCalls 3).2.1,
    ((fresh_cache_stays_empty 5 (by decide) { Now := 100 } { Now := 100 } sampleCalls
      3).2.2.2.2.2.2.2.2 (by decide)).1,
    ((fresh_cache_stays_empty 5 (by decide) { Now := 100 } { Now := 100 } sampleCalls
      3).2.2.2.2.2.2.2.2 (by decide)).1⟩

/-! ## No victim -/

/-- C20. `findLRU` yields no item exactly in the degenerate cases: over any scan order of the
map it returns nil if and only if no resident item has a timestamp (Unix nanoseconds) strictly
below `math.MaxInt64`, in particular whenever `items` is empty; and `updateCache` on a cache
with `size <= 0` and an empty `items` map does not complete: `evict` dereferences the nil
victim, and the map is left as it was. -/
theorem findLRU_nil_iff (c : Cache δ) (scan : List (CacheItem δ)) (hs : c.ScanOf scan) :
    (findLRU scan = none ↔ ¬ ∃ x ∈ c.values, UnixNano x.lastUsed < maxInt64) ∧
      (c.items = ∅ → findLRU scan = none) ∧
      (∀ (tag : String) (data : δ), c.size ≤ 0 → c.items = ∅ →
        (c.updateCache scan tag data).2 = .error .nilDereference ∧
        (c.updateCache scan tag data).1 = c) := by
  have hiff : findLRU scan = none ↔ ¬ ∃ x ∈ c.values, UnixNano x.lastUsed < maxInt64 := by
    rw [findLRU_eq_none_iff]
    constructor
    · rintro h ⟨x, hx, hlt⟩
      exact absurd (h x ((List.Perm.mem_iff hs).2 hx)) (not_le.2 hlt)
    · intro h x hx
      by_contra hlt
      exact h ⟨x, (List.Perm.mem_iff hs).1 hx, not_le.1 hlt⟩
  have hempty : c.items = ∅ → findLRU scan = none := by
    intro he
    rw [hiff]
    rintro ⟨x, hx, _⟩
    have : c.values = [] := by unfold Cache.values; rw [he]; rfl
    rw [this] at hx
    exact absurd hx (List.not_mem_nil x)
  refine ⟨hiff, hempty, ?_⟩
  intro tag data hsize he
  have hlen : c.size ≤ c.len := by
    unfold Cache.len
    rw [he, AList.keys_empty]
    simp only [List.length_nil, Nat.cast_zero]
    exact hsize
  rw [updateCache_fault c scan tag data hlen (hempty he)]
  exact ⟨rfl, rfl⟩

/-- Witness of C20: the full cache whose only resident is stamped `math.MaxInt64`, and the
empty cache of size 0. -/
theorem findLRU_nil_iff_witness :
    lastInstantOnly.ScanOf [itemALast] ∧ findLRU [itemALast] = none ∧
      zeroSizeCache.ScanOf [] ∧ zeroSizeCache.size ≤ 0 ∧ zeroSizeCache.items = ∅ ∧
      (zeroSizeCache.updateCache [] "a" 1).2 = .error .nilDereference :=
  ⟨List.Perm.refl _,
    (findLRU_nil_iff lastInstantOnly [itemALast] (List.Perm.refl _)).1.2
      (by
        rintro ⟨x, hx, hlt⟩
        have hx' : x ∈ [itemALast] := hx
        rw [List.mem_singleton] at hx'
        rw [hx'] at hlt
        exact absurd hlt (by decide)),
    List.Perm.refl _, by decide, rfl,
    ((findLRU_nil_iff zeroSizeCache [] (List.Perm.refl _)).2.2 "a" 1 (by decide) rfl).1⟩
end LRUCache
